import Mathlib

/-!
# Pool allocator (`memory_manager.c`): embedding and verified properties

The three globals of `memory_manager.c` (`memory_pool`, `pool_size`, `block_list`) are
gathered in the record `Pool` and passed explicitly. The linked list of `MemBlock`
descriptors is a Lean list in chain order; each `while (current)` loop is a structural
recursion over that list.

Conventions of the embedding:

* An address handed to or returned by the allocator is `Option Nat`: `none` is `NULL`,
  `some k` is the address `memory_pool + k`. The arena pointer itself is never `NULL`
  after `mem_init`, and `(char*)ptr - memory_pool` recovers `k`.
* `size_t` values are natural numbers. Every sum the code forms (`offset + size`,
  `size + next->size`, `prev->size + size`) is bounded by the end of a block of the
  directory, hence by `pool_size`, whenever the directory tiles the arena
  (`Tiles_block_end_le` below), so no wrap-around takes place there.
* `is_free` only ever holds `0` or `1`; it is a `Bool`.
* The arena content is a map from offsets to `char` values (as naturals); the allocator
  only ever copies them.
* Each public call performs at most one `malloc` of a descriptor. Whether that `malloc`
  succeeds is the explicit argument `malloc_ok`.
-/

namespace MemoryManager

/-- Block descriptor `struct MemBlock` (the `next` pointer is the list structure). -/
structure MemBlock where
  offset : Nat
  size : Nat
  is_free : Bool
deriving DecidableEq, Repr

/-- The global state: arena content, `pool_size` and the descriptor chain `block_list`. -/
structure Pool where
  memory_pool : Nat → Nat
  pool_size : Nat
  block_list : List MemBlock

/-- Function `mem_init`: both `malloc` calls must succeed, otherwise the process exits
(`none`). `bytes` is the (arbitrary) content of the freshly reserved arena. -/
def mem_init (pool_ok list_ok : Bool) (bytes : Nat → Nat) (size : Nat) : Option Pool :=
  if pool_ok = false then none
  else if list_ok = false then none
  else some { memory_pool := bytes, pool_size := size,
              block_list := [{ offset := 0, size := size, is_free := true }] }

/-- The `size == 0` loop of `mem_alloc` (lines 41-48): address of the first free block. -/
def alloc_probe : List MemBlock → Option Nat
  | [] => none
  | cur :: rest => if cur.is_free = true then some cur.offset else alloc_probe rest

/-- The first-fit loop of `mem_alloc` (lines 51-76): returned address and new chain. -/
def alloc_scan (malloc_ok : Bool) (size : Nat) : List MemBlock → Option Nat × List MemBlock
  | [] => (none, [])
  | cur :: rest =>
    if cur.is_free = true ∧ cur.size ≥ size then
      if cur.size > size then
        if malloc_ok = true then
          (some cur.offset,
            { offset := cur.offset, size := size, is_free := false } ::
            { offset := cur.offset + size, size := cur.size - size, is_free := true } :: rest)
        else (none, cur :: rest)
      else (some cur.offset, { cur with is_free := false } :: rest)
    else ((alloc_scan malloc_ok size rest).1, cur :: (alloc_scan malloc_ok size rest).2)

/-- Function `mem_alloc`. -/
def mem_alloc (malloc_ok : Bool) (s : Pool) (size : Nat) : Option Nat × Pool :=
  if size = 0 then (alloc_probe s.block_list, s)
  else ((alloc_scan malloc_ok size s.block_list).1,
        { s with block_list := (alloc_scan malloc_ok size s.block_list).2 })

/-- Lines 95-100 of `mem_free`: `cur` (already marked free) absorbs a free successor. -/
def merge_next (cur : MemBlock) : List MemBlock → List MemBlock
  | [] => [cur]
  | nx :: rest =>
    if nx.is_free = true then { cur with size := cur.size + nx.size } :: rest
    else cur :: nx :: rest

/-- Lines 103-107 of `mem_free`: a free `prev` absorbs the block heading `l`. -/
def merge_prev (prev : Option MemBlock) : List MemBlock → List MemBlock
  | [] => prev.toList
  | cur :: rest =>
    match prev with
    | none => cur :: rest
    | some p =>
      if p.is_free = true then { p with size := p.size + cur.size } :: rest
      else p :: cur :: rest

/-- The loop of `mem_free` (lines 87-112) with its two cursors `prev` and `current`
(the head of the list argument). The result is the chain from `prev` onwards. -/
def free_scan (offset : Nat) : Option MemBlock → List MemBlock → List MemBlock
  | prev, [] => prev.toList
  | prev, cur :: rest =>
    if cur.offset = offset then
      if cur.is_free = true then prev.toList ++ cur :: rest
      else merge_prev prev (merge_next { cur with is_free := true } rest)
    else prev.toList ++ free_scan offset (some cur) rest

/-- Function `mem_free`. -/
def mem_free (s : Pool) (ptr : Option Nat) : Pool :=
  match ptr with
  | none => s
  | some offset => { s with block_list := free_scan offset none s.block_list }

/-- How the loop of `mem_resize` ends. -/
inductive ResizeStep where
  /-- The loop ran off the chain (line 181). -/
  | not_found
  /-- Lines 128-166: resized in place; `ret = false` when the descriptor `malloc`
  failed and `NULL` is returned. -/
  | in_place (ret : Bool) (l : List MemBlock)
  /-- Lines 167-175: the block (of size `cur_size`) has to move. -/
  | fallback (cur_size : Nat)
deriving DecidableEq, Repr

/-- The block `cur`, passed over by the loop of `mem_resize`, stays in front of whatever
chain the rest of the loop produces. -/
def ResizeStep.push (cur : MemBlock) : ResizeStep → ResizeStep
  | .in_place ret l => .in_place ret (cur :: l)
  | .not_found => .not_found
  | .fallback cur_size => .fallback cur_size

/-- Lines 129-142 and 153-165 of `mem_resize`: `cur` keeps its first `size` bytes and
a new free descriptor takes the rest, when `cur` is strictly larger than `size`. -/
def split_tail (malloc_ok : Bool) (size : Nat) (cur : MemBlock) (rest : List MemBlock) :
    ResizeStep :=
  if cur.size > size then
    if malloc_ok = true then
      .in_place true ({ cur with size := size } ::
        { offset := cur.offset + size, size := cur.size - size, is_free := true } :: rest)
    else .in_place false (cur :: rest)
  else .in_place true (cur :: rest)

/-- The loop of `mem_resize` (lines 126-179). -/
def resize_scan (malloc_ok : Bool) (offset size : Nat) : List MemBlock → ResizeStep
  | [] => .not_found
  | cur :: rest =>
    if cur.offset = offset then
      if cur.size ≥ size then split_tail malloc_ok size cur rest
      else
        match rest with
        | [] => .fallback cur.size
        | nx :: rest2 =>
          if nx.is_free = true ∧ cur.size + nx.size ≥ size then
            split_tail malloc_ok size { cur with size := cur.size + nx.size } rest2
          else .fallback cur.size
    else (resize_scan malloc_ok offset size rest).push cur

/-- Library `memcpy(memory_pool + dst, memory_pool + src, len)` on the arena content
(source and destination do not overlap). -/
def memcpy (mem : Nat → Nat) (dst src len : Nat) : Nat → Nat :=
  fun i => if dst ≤ i ∧ i < dst + len then mem (src + (i - dst)) else mem i

/-- Function `mem_resize`. In the fallback branch `current->size` is read after
`mem_alloc(size)`; that call only rewrites a block of size at least `size`, never
`current`, so the value is the one the loop saw. -/
def mem_resize (malloc_ok : Bool) (s : Pool) (ptr : Option Nat) (size : Nat) :
    Option Nat × Pool :=
  match ptr with
  | none => mem_alloc malloc_ok s size
  | some offset =>
    if size = 0 then (none, mem_free s (some offset))
    else
      match resize_scan malloc_ok offset size s.block_list with
      | .not_found => (none, s)
      | .in_place ret l => (if ret = true then some offset else none, { s with block_list := l })
      | .fallback cur_size =>
        match (mem_alloc malloc_ok s size).1 with
        | none => (none, (mem_alloc malloc_ok s size).2)
        | some q =>
          (some q,
            mem_free { (mem_alloc malloc_ok s size).2 with
              memory_pool := memcpy (mem_alloc malloc_ok s size).2.memory_pool q offset cur_size }
              (some offset))

/-- One public call on the pool; allocation calls carry the outcome of their
descriptor `malloc`. -/
inductive Op where
  | alloc (malloc_ok : Bool) (n : Nat)
  | free (p : Option Nat)
  | resize (malloc_ok : Bool) (p : Option Nat) (n : Nat)
deriving DecidableEq, Repr

/-- State after one call (the returned address is dropped). -/
def step (s : Pool) : Op → Pool
  | .alloc ok n => (mem_alloc ok s n).2
  | .free p => mem_free s p
  | .resize ok p n => (mem_resize ok s p n).2

/-- State after a finite sequence of calls. -/
def run (s : Pool) (ops : List Op) : Pool := ops.foldl step s

/-- The blocks of `l` tile `[o, e)`: each starts where the previous one ends. -/
def Tiles : Nat → List MemBlock → Nat → Prop
  | o, [], e => o = e
  | o, b :: r, e => b.offset = o ∧ Tiles (o + b.size) r e

instance Tiles.decide : (o : Nat) → (l : List MemBlock) → (e : Nat) → Decidable (Tiles o l e)
  | o, [], e => inferInstanceAs (Decidable (o = e))
  | o, b :: r, e =>
    match Tiles.decide (o + b.size) r e with
    | isTrue h => if hb : b.offset = o then isTrue ⟨hb, h⟩ else isFalse (fun hn => hb hn.1)
    | isFalse h => isFalse (fun hn => h hn.2)

/-- No two neighbours in the chain are both free. -/
def NoAdjFree : List MemBlock → Prop
  | [] => True
  | [_] => True
  | a :: b :: r => ¬ (a.is_free = true ∧ b.is_free = true) ∧ NoAdjFree (b :: r)

instance NoAdjFree.decide : (l : List MemBlock) → Decidable (NoAdjFree l)
  | [] => isTrue trivial
  | [_] => isTrue trivial
  | a :: b :: r =>
    match NoAdjFree.decide (b :: r) with
    | isTrue h =>
      if hab : a.is_free = true ∧ b.is_free = true then isFalse (fun hn => hn.1 hab)
      else isTrue ⟨hab, h⟩
    | isFalse h => isFalse (fun hn => h hn.2)

/-- The directory invariant of the arena, spelled out: offsets ascend, the first block
starts at 0, neighbours are contiguous, the last block ends at `pool_size`, and the
sizes add up to `pool_size`. -/
def DirectoryTiling (s : Pool) : Prop :=
  (s.block_list.map (fun b => b.offset)).Pairwise (fun x y => x ≤ y) ∧
  s.block_list.head?.map (fun b => b.offset) = some 0 ∧
  (∀ pr ∈ s.block_list.zip s.block_list.tail, pr.1.offset + pr.1.size = pr.2.offset) ∧
  s.block_list.getLast?.map (fun b => b.offset + b.size) = some s.pool_size ∧
  (s.block_list.map (fun b => b.size)).sum = s.pool_size

/-- Recursive form of the tiling invariant of a pool: a non-empty chain tiling
`[0, pool_size)`. -/
def PoolTiled (s : Pool) : Prop := s.block_list ≠ [] ∧ Tiles 0 s.block_list s.pool_size

instance DirectoryTiling.decide (s : Pool) : Decidable (DirectoryTiling s) := by
  unfold DirectoryTiling; infer_instance

instance PoolTiled.decide (s : Pool) : Decidable (PoolTiled s) := by
  unfold PoolTiled; infer_instance

/-- Pool of 20 bytes right after `mem_init(20)` (arena content all zero). -/
def pool20 : Pool := ⟨fun _ => 0, 20, [⟨0, 20, true⟩]⟩

/-- Pool of 16 bytes right after `mem_init(16)`. -/
def pool16 : Pool := ⟨fun _ => 0, 16, [⟨0, 16, true⟩]⟩

/-- A 40-byte pool whose free blocks have sizes 10, 5 and 20 at ascending offsets. -/
def pool_first_fit : Pool :=
  ⟨fun _ => 0, 40, [⟨0, 10, true⟩, ⟨10, 2, false⟩, ⟨12, 5, true⟩, ⟨17, 3, false⟩, ⟨20, 20, true⟩]⟩

/-- Every block of the chain has a positive size. -/
def PositiveSizes (l : List MemBlock) : Prop := ∀ b ∈ l, 0 < b.size

instance PositiveSizes.decide (l : List MemBlock) : Decidable (PositiveSizes l) := by
  unfold PositiveSizes; infer_instance

/-- Every occupied block of the chain has a positive size. -/
def OccupiedPositive (l : List MemBlock) : Prop := ∀ b ∈ l, b.is_free = false → 0 < b.size

instance OccupiedPositive.decide (l : List MemBlock) : Decidable (OccupiedPositive l) := by
  unfold OccupiedPositive; infer_instance

/-- The pool states the code can be in: those obtained from a successful `mem_init` by a
finite sequence of `mem_alloc`, `mem_free` and `mem_resize` calls (any sizes, any
addresses, any outcome of the descriptor allocations). -/
def Reachable (s : Pool) : Prop :=
  ∃ bytes size s0 ops, mem_init true true bytes size = some s0 ∧ run s0 ops = s

/-- Calls that lead from `mem_init(40)` to the chain with free blocks of sizes 10, 5 and
20: four allocations, then the first and the third are released. -/
def calls_first_fit : List Op :=
  [.alloc true 10, .alloc true 2, .alloc true 5, .alloc true 3, .free (some 0),
    .free (some 12)]

/-- A 20-byte pool with three live allocations and a free tail. -/
def pool_three_live : Pool :=
  ⟨fun i => i, 20, [⟨0, 5, false⟩, ⟨5, 5, false⟩, ⟨10, 5, false⟩, ⟨15, 5, true⟩]⟩

/-- The pool after `mem_init(20)` and `a = mem_alloc(10)`: `a` is offset 0 and the block
at offset 10 is free. -/
def pool20_half : Pool := ⟨fun _ => 0, 20, [⟨0, 10, false⟩, ⟨10, 10, true⟩]⟩

/-- A 20-byte pool with distinct arena bytes: the live block at offset 0 (5 bytes) is
followed by a live block, and a free block of 10 bytes lies at offset 10. -/
def pool_must_move : Pool :=
  ⟨fun i => i + 1, 20, [⟨0, 5, false⟩, ⟨5, 5, false⟩, ⟨10, 10, true⟩]⟩

/-- A 20-byte pool with no free block left: the block at offset 5 cannot grow. -/
def pool_full : Pool :=
  ⟨fun i => i + 1, 20, [⟨0, 5, false⟩, ⟨5, 5, false⟩, ⟨10, 10, false⟩]⟩

/-- The immediate predecessor of the released block when it is free (the last block of
`pre`), as a list of at most one block. -/
def free_pred (pre : List MemBlock) : List MemBlock :=
  pre.getLast?.toList.filter (fun b => b.is_free)

/-- The immediate successor of the released block when it is free (the first block of
`post`), as a list of at most one block. -/
def free_succ (post : List MemBlock) : List MemBlock :=
  post.head?.toList.filter (fun b => b.is_free)

/-- Coalescing as the specification words it, for the chain `pre ++ B :: post`: `B` and
whichever of its two neighbours are free are replaced by one free block whose offset is
the lowest offset of the merged blocks and whose size is the sum of their sizes; every
other block stays. -/
def coalesce_spec (pre : List MemBlock) (B : MemBlock) (post : List MemBlock) :
    List MemBlock :=
  (if free_pred pre = [] then pre else pre.dropLast) ++
    { offset := ((free_pred pre ++ B :: free_succ post).map (fun b => b.offset)).foldr min
        B.offset,
      size := ((free_pred pre ++ B :: free_succ post).map (fun b => b.size)).sum,
      is_free := true } ::
    (if free_succ post = [] then post else post.tail)

/-- A 20-byte pool in which the live block at offset 5 lies between two free blocks. -/
def pool_sandwich : Pool := ⟨fun i => i, 20, [⟨0, 5, true⟩, ⟨5, 5, false⟩, ⟨10, 10, true⟩]⟩

/-- The live block `L` is undisturbed from state `s` to state `t`: `t` still has the
occupied block `L` (same offset, same size) and every arena byte of `L` is as in `s`. -/
def Undisturbed (s t : Pool) (L : MemBlock) : Prop :=
  L ∈ t.block_list ∧
  ∀ i, L.offset ≤ i → i < L.offset + L.size → t.memory_pool i = s.memory_pool i

/-- Total size of the free blocks of a chain. -/
def free_bytes (l : List MemBlock) : Nat :=
  ((l.filter (fun b => b.is_free)).map (fun b => b.size)).sum

/-- Total size of the occupied blocks of a chain. -/
def used_bytes (l : List MemBlock) : Nat :=
  ((l.filter (fun b => !b.is_free)).map (fun b => b.size)).sum

end MemoryManager

/-! # Singly linked list (`linked_list.c`)

A list is the sequence of the `data` fields of its nodes in chain order (`uint16_t`
values, as naturals); a pointer to a node is the chain that starts at that node. -/

namespace LinkedList

/-- Function `list_delete`: the loop walks past the nodes whose data differs from `data`;
the first node that matches is unlinked, and nothing changes when the loop runs off the
list. -/
def list_delete : List Nat → Nat → List Nat
  | [], _ => []
  | cur :: rest, data => if cur ≠ data then cur :: list_delete rest data else rest

/-- Function `list_search`: the first node whose data is `data`, or `NULL` (`none`). -/
def list_search : List Nat → Nat → Option (List Nat)
  | [], _ => none
  | cur :: rest, data => if cur = data then some (cur :: rest) else list_search rest data

/-- Function `list_count_nodes`: one `count++` per node. -/
def list_count_nodes : List Nat → Nat
  | [] => 0
  | _ :: rest => list_count_nodes rest + 1

end LinkedList

namespace MemoryManager

/-! ## Tiling: basic facts -/

@[simp] theorem Tiles_nil (o e : Nat) : Tiles o [] e ↔ o = e := Iff.rfl

@[simp] theorem Tiles_cons (o e : Nat) (b : MemBlock) (r : List MemBlock) :
    Tiles o (b :: r) e ↔ b.offset = o ∧ Tiles (o + b.size) r e := Iff.rfl

theorem Tiles_append (a b : List MemBlock) (o e : Nat) :
    Tiles o (a ++ b) e ↔ ∃ m, Tiles o a m ∧ Tiles m b e := by
  induction a generalizing o with
  | nil => simp
  | cons x a ih =>
    rw [List.cons_append, Tiles_cons, ih]
    simp only [Tiles_cons]
    constructor
    · rintro ⟨h1, m, h2, h3⟩
      exact ⟨m, ⟨h1, h2⟩, h3⟩
    · rintro ⟨m, ⟨h1, h2⟩, h3⟩
      exact ⟨h1, m, h2, h3⟩

theorem Tiles_end_unique (l : List MemBlock) (o e1 e2 : Nat) (h1 : Tiles o l e1)
    (h2 : Tiles o l e2) : e1 = e2 := by
  induction l generalizing o with
  | nil => simp only [Tiles] at h1 h2; omega
  | cons x l ih => exact ih _ h1.2 h2.2

theorem Tiles_le (l : List MemBlock) (o e : Nat) (h : Tiles o l e) : o ≤ e := by
  induction l generalizing o with
  | nil => simp only [Tiles] at h; omega
  | cons x l ih => have := ih _ h.2; omega

/-- In a tiling every block lies between the start and the end of the tiled range, so
the sums the code forms on it stay below `pool_size`. -/
theorem Tiles_block_end_le (l : List MemBlock) (o e : Nat) (h : Tiles o l e) (b : MemBlock)
    (hb : b ∈ l) : o ≤ b.offset ∧ b.offset + b.size ≤ e := by
  induction l generalizing o with
  | nil => simp at hb
  | cons x l ih =>
    rcases List.mem_cons.1 hb with rfl | hb
    · have := Tiles_le _ _ _ h.2
      have := h.1
      omega
    · have := ih _ h.2 hb
      omega

theorem Tiles_sum (l : List MemBlock) (o e : Nat) (h : Tiles o l e) :
    o + (l.map (fun b => b.size)).sum = e := by
  induction l generalizing o with
  | nil => simpa [Tiles] using h
  | cons x l ih =>
    have := ih _ h.2
    simp only [List.map_cons, List.sum_cons]
    omega

theorem Tiles_pairwise (l : List MemBlock) (o e : Nat) (h : Tiles o l e) :
    (l.map (fun b => b.offset)).Pairwise (fun x y => x ≤ y) := by
  induction l generalizing o with
  | nil => simp
  | cons x l ih =>
    simp only [List.map_cons, List.pairwise_cons, List.mem_map, forall_exists_index, and_imp,
      forall_apply_eq_imp_iff₂]
    refine ⟨fun b hb => ?_, ih _ h.2⟩
    have := Tiles_block_end_le _ _ _ h.2 b hb
    have := h.1
    omega

theorem Tiles_consecutive (l : List MemBlock) (o e : Nat) (h : Tiles o l e) :
    ∀ pr ∈ l.zip l.tail, pr.1.offset + pr.1.size = pr.2.offset := by
  induction l generalizing o with
  | nil => simp
  | cons x l ih =>
    cases l with
    | nil => simp
    | cons y l =>
      intro pr hpr
      simp only [List.tail_cons, List.zip_cons_cons, List.mem_cons] at hpr
      rcases hpr with rfl | hpr
      · have := h.1
        have := h.2.1
        simp only
        omega
      · exact ih _ h.2 pr (by simpa using hpr)

theorem Tiles_getLast (l : List MemBlock) (o e : Nat) (h : Tiles o l e) (hne : l ≠ []) :
    l.getLast?.map (fun b => b.offset + b.size) = some e := by
  induction l generalizing o with
  | nil => exact absurd rfl hne
  | cons x l ih =>
    cases l with
    | nil =>
      have h1 := h.1
      have h2 : o + x.size = e := h.2
      simp only [List.getLast?_singleton, Option.map_some', Option.some.injEq]
      omega
    | cons y l =>
      rw [List.getLast?_cons_cons]
      exact ih _ h.2 (by simp)

theorem DirectoryTiling_of_Tiles (s : Pool) (hne : s.block_list ≠ [])
    (h : Tiles 0 s.block_list s.pool_size) : DirectoryTiling s := by
  refine ⟨Tiles_pairwise _ _ _ h, ?_, Tiles_consecutive _ _ _ h, Tiles_getLast _ _ _ h hne, ?_⟩
  · cases hl : s.block_list with
    | nil => exact absurd hl hne
    | cons x l =>
      rw [hl] at h
      simp [h.1]
  · simpa using Tiles_sum _ _ _ h

/-! ## The operations preserve the tiling -/

theorem alloc_scan_Tiles (ok : Bool) (n : Nat) (l : List MemBlock) (o e : Nat)
    (h : Tiles o l e) : Tiles o (alloc_scan ok n l).2 e := by
  induction l generalizing o with
  | nil => simpa [alloc_scan] using h
  | cons cur rest ih =>
    obtain ⟨h1, h2⟩ := h
    unfold alloc_scan
    split_ifs with hc hgt hok
    · simp only [Tiles_cons, true_and]
      refine ⟨h1, ?_⟩
      have : o + n + (cur.size - n) = o + cur.size := by omega
      rw [h1, this]; exact ⟨rfl, h2⟩
    · exact ⟨h1, h2⟩
    · exact ⟨h1, h2⟩
    · exact ⟨h1, ih _ h2⟩

theorem alloc_scan_ne_nil (ok : Bool) (n : Nat) (l : List MemBlock) (h : l ≠ []) :
    (alloc_scan ok n l).2 ≠ [] := by
  cases l with
  | nil => exact absurd rfl h
  | cons cur rest =>
    unfold alloc_scan
    split_ifs <;> simp

theorem merge_next_Tiles (cur : MemBlock) (rest : List MemBlock) (o e : Nat)
    (h : Tiles o (cur :: rest) e) :
    Tiles o (merge_next { cur with is_free := true } rest) e := by
  cases rest with
  | nil => exact h
  | cons nx rest =>
    obtain ⟨h1, h2, h3⟩ := h
    simp only [merge_next]
    split_ifs
    · refine ⟨h1, ?_⟩
      have : o + (cur.size + nx.size) = o + cur.size + nx.size := by omega
      simp only [this]; exact h3
    · exact ⟨h1, h2, h3⟩

theorem merge_next_ne_nil (cur : MemBlock) (rest : List MemBlock) :
    merge_next cur rest ≠ [] := by
  cases rest with
  | nil => simp [merge_next]
  | cons nx rest => simp only [merge_next]; split_ifs <;> simp

theorem merge_prev_Tiles (prev : Option MemBlock) (l : List MemBlock) (o e : Nat)
    (h : Tiles o (prev.toList ++ l) e) : Tiles o (merge_prev prev l) e := by
  cases l with
  | nil => simpa [merge_prev] using h
  | cons cur rest =>
    cases prev with
    | none => simpa [merge_prev] using h
    | some p =>
      simp only [Option.toList_some, List.singleton_append, Tiles_cons] at h
      obtain ⟨h1, h2, h3⟩ := h
      simp only [merge_prev]
      split_ifs
      · refine ⟨h1, ?_⟩
        have : o + (p.size + cur.size) = o + p.size + cur.size := by omega
        simp only [this]; exact h3
      · exact ⟨h1, h2, h3⟩

theorem merge_prev_ne_nil (prev : Option MemBlock) (l : List MemBlock) (h : l ≠ []) :
    merge_prev prev l ≠ [] := by
  cases l with
  | nil => exact absurd rfl h
  | cons cur rest =>
    cases prev with
    | none => simp [merge_prev]
    | some p => simp only [merge_prev]; split_ifs <;> simp

theorem free_scan_Tiles (off : Nat) (prev : Option MemBlock) (l : List MemBlock) (o e : Nat)
    (h : Tiles o (prev.toList ++ l) e) : Tiles o (free_scan off prev l) e := by
  induction l generalizing prev o with
  | nil => simpa [free_scan] using h
  | cons cur rest ih =>
    unfold free_scan
    split_ifs with hoff hfree
    · exact h
    · apply merge_prev_Tiles
      rw [Tiles_append] at h ⊢
      obtain ⟨m, hm1, hm2⟩ := h
      exact ⟨m, hm1, merge_next_Tiles _ _ _ _ hm2⟩
    · rw [Tiles_append] at h ⊢
      obtain ⟨m, hm1, hm2⟩ := h
      exact ⟨m, hm1, ih (some cur) m (by simpa using hm2)⟩

theorem free_scan_ne_nil (off : Nat) (prev : Option MemBlock) (l : List MemBlock)
    (h : l ≠ []) : free_scan off prev l ≠ [] := by
  induction l generalizing prev with
  | nil => exact absurd rfl h
  | cons cur rest ih =>
    unfold free_scan
    split_ifs
    · simp
    · exact merge_prev_ne_nil _ _ (merge_next_ne_nil _ _)
    · cases rest with
      | nil => simp [free_scan]
      | cons y rest => simpa using fun _ => ih (some cur) (by simp)

theorem split_tail_Tiles (ok : Bool) (n : Nat) (cur : MemBlock) (rest : List MemBlock)
    (r : Bool) (l2 : List MemBlock) (o e : Nat)
    (hs : split_tail ok n cur rest = .in_place r l2) (h : Tiles o (cur :: rest) e) :
    Tiles o l2 e ∧ l2 ≠ [] := by
  obtain ⟨h1, h2⟩ := h
  unfold split_tail at hs
  split_ifs at hs with hgt hok <;> simp only [ResizeStep.in_place.injEq] at hs <;>
    obtain ⟨-, rfl⟩ := hs
  · refine ⟨⟨h1, ?_, ?_⟩, by simp⟩
    · simp [h1]
    · have : o + n + (cur.size - n) = o + cur.size := by omega
      simp only [this]; exact h2
  · exact ⟨⟨h1, h2⟩, by simp⟩
  · exact ⟨⟨h1, h2⟩, by simp⟩

theorem resize_scan_Tiles (ok : Bool) (off n : Nat) (l : List MemBlock) (r : Bool)
    (l2 : List MemBlock) (o e : Nat) (hs : resize_scan ok off n l = .in_place r l2)
    (h : Tiles o l e) : Tiles o l2 e ∧ l2 ≠ [] := by
  induction l generalizing o l2 r with
  | nil => simp [resize_scan] at hs
  | cons cur rest ih =>
    unfold resize_scan at hs
    split_ifs at hs with hoff hge
    · exact split_tail_Tiles _ _ _ _ _ _ _ _ hs h
    · cases rest with
      | nil => simp at hs
      | cons nx rest2 =>
        simp only at hs
        split_ifs at hs with hc
        · refine split_tail_Tiles _ _ _ _ _ _ _ _ hs ?_
          obtain ⟨h1, h2, h3⟩ := h
          refine ⟨h1, ?_⟩
          have : o + (cur.size + nx.size) = o + cur.size + nx.size := by omega
          simp only [this]; exact h3
    · cases hrec : resize_scan ok off n rest with
      | not_found => rw [hrec] at hs; simp [ResizeStep.push] at hs
      | fallback c => rw [hrec] at hs; simp [ResizeStep.push] at hs
      | in_place r2 l3 =>
        rw [hrec] at hs
        simp only [ResizeStep.push, ResizeStep.in_place.injEq] at hs
        obtain ⟨-, rfl⟩ := hs
        exact ⟨⟨h.1, (ih _ _ _ hrec h.2).1⟩, by simp⟩

theorem mem_alloc_pool_size (ok : Bool) (s : Pool) (n : Nat) :
    (mem_alloc ok s n).2.pool_size = s.pool_size := by
  unfold mem_alloc; split_ifs <;> rfl

theorem mem_free_pool_size (s : Pool) (p : Option Nat) :
    (mem_free s p).pool_size = s.pool_size := by
  cases p <;> rfl

theorem mem_alloc_PoolTiled (ok : Bool) (s : Pool) (n : Nat) (h : PoolTiled s) :
    PoolTiled (mem_alloc ok s n).2 := by
  unfold mem_alloc
  split_ifs
  · exact h
  · exact ⟨alloc_scan_ne_nil _ _ _ h.1, alloc_scan_Tiles _ _ _ _ _ h.2⟩

theorem mem_free_PoolTiled (s : Pool) (p : Option Nat) (h : PoolTiled s) :
    PoolTiled (mem_free s p) := by
  cases p with
  | none => exact h
  | some off =>
    exact ⟨free_scan_ne_nil _ _ _ h.1, free_scan_Tiles _ _ _ _ _ (by simpa using h.2)⟩

theorem mem_resize_PoolTiled (ok : Bool) (s : Pool) (p : Option Nat) (n : Nat)
    (h : PoolTiled s) : PoolTiled (mem_resize ok s p n).2 := by
  cases p with
  | none => exact mem_alloc_PoolTiled ok s n h
  | some off =>
    simp only [mem_resize]
    split_ifs with hn
    · exact mem_free_PoolTiled s (some off) h
    · cases hrec : resize_scan ok off n s.block_list with
      | not_found => exact h
      | in_place r l2 =>
        have := resize_scan_Tiles _ _ _ _ _ _ _ _ hrec h.2
        exact ⟨this.2, this.1⟩
      | fallback c =>
        have ha := mem_alloc_PoolTiled ok s n h
        simp only
        cases hq : (mem_alloc ok s n).1 with
        | none => exact ha
        | some q => exact mem_free_PoolTiled _ (some off) ha

theorem step_PoolTiled (s : Pool) (op : Op) (h : PoolTiled s) : PoolTiled (step s op) := by
  cases op with
  | alloc ok n => exact mem_alloc_PoolTiled ok s n h
  | free p => exact mem_free_PoolTiled s p h
  | resize ok p n => exact mem_resize_PoolTiled ok s p n h

theorem run_PoolTiled (s : Pool) (ops : List Op) (h : PoolTiled s) : PoolTiled (run s ops) := by
  induction ops generalizing s with
  | nil => exact h
  | cons op ops ih => exact ih _ (step_PoolTiled s op h)

theorem mem_resize_pool_size (ok : Bool) (s : Pool) (p : Option Nat) (n : Nat) :
    (mem_resize ok s p n).2.pool_size = s.pool_size := by
  cases p with
  | none => exact mem_alloc_pool_size ok s n
  | some off =>
    simp only [mem_resize]
    split_ifs with hn
    · rfl
    · cases hrec : resize_scan ok off n s.block_list with
      | not_found => rfl
      | in_place r l2 => rfl
      | fallback c =>
        simp only
        cases hq : (mem_alloc ok s n).1 with
        | none => exact mem_alloc_pool_size ok s n
        | some q => exact mem_alloc_pool_size ok s n

theorem run_pool_size (s : Pool) (ops : List Op) : (run s ops).pool_size = s.pool_size := by
  induction ops generalizing s with
  | nil => rfl
  | cons op ops ih =>
    have h : (step s op).pool_size = s.pool_size := by
      cases op with
      | alloc ok n => exact mem_alloc_pool_size ok s n
      | free p => exact mem_free_pool_size s p
      | resize ok p n => exact mem_resize_pool_size ok s p n
    exact (ih (step s op)).trans h

/-- C1 (tiling and conservation): `mem_init(size)` yields exactly one free block of
`size` bytes at offset 0, and after every finite sequence of `mem_alloc`, `mem_free` and
`mem_resize` calls (any sizes, any addresses, whatever the outcome of the descriptor
allocations) `pool_size` is still `size` and the chain is in ascending offset order,
starts at offset 0, is contiguous, ends at `pool_size`, and its sizes sum to
`pool_size`. -/
theorem tiling_conservation_invariant (bytes : Nat → Nat) (size : Nat) :
    ∃ s0, mem_init true true bytes size = some s0 ∧
      s0.block_list = [{ offset := 0, size := size, is_free := true }] ∧
      ∀ ops : List Op, (run s0 ops).pool_size = size ∧ DirectoryTiling (run s0 ops) := by
  refine ⟨_, rfl, rfl, fun ops => ?_⟩
  have h := run_PoolTiled ⟨bytes, size, [⟨0, size, true⟩]⟩ ops ⟨by simp, by simp⟩
  exact ⟨run_pool_size _ ops, DirectoryTiling_of_Tiles _ h.1 h.2⟩

/-- C2 (no adjacent free blocks), evaluated on `mem_init(20)`, `a = mem_alloc(10)`,
`mem_resize(a, 5)`: `a` is the occupied block at offset 0 when it is resized, the call
returns `a`, and the chain then holds the free remainder (offset 5) right before the free
block at offset 10, which are never merged. -/
theorem shrink_leaves_adjacent_free :
    mem_init true true (fun _ => 0) 20 = some pool20 ∧
    (mem_alloc true pool20 10).1 = some 0 ∧
    (mem_alloc true pool20 10).2.block_list = [⟨0, 10, false⟩, ⟨10, 10, true⟩] ∧
    (mem_resize true (mem_alloc true pool20 10).2 (some 0) 5).1 = some 0 ∧
    (run pool20 [.alloc true 10, .resize true (some 0) 5]).block_list =
      [⟨0, 5, false⟩, ⟨5, 5, true⟩, ⟨10, 10, true⟩] ∧
    ¬ NoAdjFree (run pool20 [.alloc true 10, .resize true (some 0) 5]).block_list := by
  refine ⟨rfl, rfl, rfl, rfl, rfl, ?_⟩
  decide

/-! ## First-fit allocation -/

theorem alloc_scan_none (ok : Bool) (n : Nat) (l : List MemBlock)
    (h : ∀ b ∈ l, ¬ (b.is_free = true ∧ n ≤ b.size)) : alloc_scan ok n l = (none, l) := by
  induction l with
  | nil => rfl
  | cons cur rest ih =>
    have hc : ¬ (cur.is_free = true ∧ cur.size ≥ n) := h cur (List.mem_cons_self _ _)
    have hr := ih (fun b hb => h b (List.mem_cons_of_mem _ hb))
    simp only [alloc_scan, hc, if_false, hr]

theorem alloc_scan_skip (ok : Bool) (n : Nat) (pre l : List MemBlock)
    (h : ∀ b ∈ pre, ¬ (b.is_free = true ∧ n ≤ b.size)) :
    alloc_scan ok n (pre ++ l) = ((alloc_scan ok n l).1, pre ++ (alloc_scan ok n l).2) := by
  induction pre with
  | nil => rfl
  | cons cur rest ih =>
    have hc : ¬ (cur.is_free = true ∧ cur.size ≥ n) := h cur (List.mem_cons_self _ _)
    have hr := ih (fun b hb => h b (List.mem_cons_of_mem _ hb))
    rw [List.cons_append, alloc_scan, if_neg hc, hr]
    rfl

theorem alloc_scan_fst (n : Nat) (l : List MemBlock) :
    (alloc_scan true n l).1 =
      (l.find? (fun b => b.is_free && decide (n ≤ b.size))).map (fun b => b.offset) := by
  induction l with
  | nil => rfl
  | cons cur rest ih =>
    by_cases hc : cur.is_free = true ∧ cur.size ≥ n
    · have hq : (cur.is_free && decide (n ≤ cur.size)) = true := by simpa using hc
      simp only [alloc_scan, hc, and_self, if_true, List.find?_cons, hq]
      split_ifs <;> rfl
    · have hq : (cur.is_free && decide (n ≤ cur.size)) = false := by
        simpa using hc
      simp only [alloc_scan, hc, if_false, List.find?_cons, hq, ih]

/-- C3 (first fit): for `n > 0`, `mem_alloc(n)` returns the start address of the earliest
block in chain order that is free and has size at least `n` (and `NULL` when there is
none), whether or not a later block fits exactly (descriptor allocation succeeding). -/
theorem first_fit_selection (s : Pool) (n : Nat) (hn : 0 < n) :
    (mem_alloc true s n).1 =
      (s.block_list.find? (fun b => b.is_free && decide (n ≤ b.size))).map
        (fun b => b.offset) := by
  have h0 : n ≠ 0 := by omega
  simp only [mem_alloc, h0, if_false]
  exact alloc_scan_fst n s.block_list

/-- C3 on the chain with free blocks of sizes 10, 5 and 20: `mem_alloc(5)` returns the
address of the size-10 block at offset 0, not that of the exact fit at offset 12. -/
theorem first_fit_selection_witness :
    0 < 5 ∧ (mem_alloc true pool_first_fit 5).1 = some 0 :=
  ⟨by decide, (first_fit_selection pool_first_fit 5 (by decide)).trans rfl⟩

/-- C4 (allocation postcondition): for `n > 0`, when the first free block of size at
least `n` is `B` (the chain is `pre ++ B :: post` and nothing in `pre` qualifies),
`mem_alloc(n)` returns `B`'s address, leaves arena content, `pre` and `post` untouched,
and replaces `B` by itself marked occupied when `B.size = n`, or else by an occupied
block `(B.offset, n)` followed by a free block `(B.offset + n, B.size - n)` (descriptor
allocation succeeding). -/
theorem alloc_postcondition (s : Pool) (n : Nat) (hn : 0 < n) (pre post : List MemBlock)
    (B : MemBlock) (hd : s.block_list = pre ++ B :: post)
    (hpre : ∀ b ∈ pre, ¬ (b.is_free = true ∧ n ≤ b.size))
    (hfree : B.is_free = true) (hsz : n ≤ B.size) :
    mem_alloc true s n =
      (some B.offset,
        { s with block_list := pre ++
          (if B.size = n then [{ B with is_free := false }]
           else [⟨B.offset, n, false⟩, ⟨B.offset + n, B.size - n, true⟩]) ++ post }) := by
  have h0 : n ≠ 0 := by omega
  have hc : B.is_free = true ∧ B.size ≥ n := ⟨hfree, hsz⟩
  simp only [mem_alloc, h0, if_false, hd, alloc_scan_skip true n pre (B :: post) hpre]
  by_cases he : B.size = n
  · have hgt : ¬ B.size > n := by omega
    simp [alloc_scan, hc, hgt, he]
  · have hgt : B.size > n := by omega
    simp [alloc_scan, hc, hgt, he]

/-- C4 on the chain with free blocks of sizes 10, 5 and 20: `mem_alloc(5)` splits the
size-10 block and `mem_alloc(20)` takes the last block whole. -/
theorem alloc_postcondition_witness :
    mem_alloc true pool_first_fit 5 =
      (some 0, { pool_first_fit with block_list :=
        [⟨0, 5, false⟩, ⟨5, 5, true⟩, ⟨10, 2, false⟩, ⟨12, 5, true⟩, ⟨17, 3, false⟩,
          ⟨20, 20, true⟩] }) :=
  alloc_postcondition pool_first_fit 5 (by decide) [] _ ⟨0, 10, true⟩ rfl (by simp) rfl
    (by decide)

/-- C5 (exhaustion): for `n > 0` (descriptor allocation succeeding), `mem_alloc(n)`
returns `NULL` exactly when no free block has size at least `n`, and then the whole pool
state (chain and arena content) is unchanged. -/
theorem alloc_exhaustion (s : Pool) (n : Nat) (hn : 0 < n) :
    ((mem_alloc true s n).1 = none ↔ ∀ b ∈ s.block_list, ¬ (b.is_free = true ∧ n ≤ b.size)) ∧
    ((mem_alloc true s n).1 = none → (mem_alloc true s n).2 = s) := by
  have hiff : (mem_alloc true s n).1 = none ↔
      ∀ b ∈ s.block_list, ¬ (b.is_free = true ∧ n ≤ b.size) := by
    have h0 : n ≠ 0 := by omega
    simp only [mem_alloc, h0, if_false, alloc_scan_fst]
    simp
  refine ⟨hiff, fun h => ?_⟩
  have h0 : n ≠ 0 := by omega
  simp only [mem_alloc, h0, if_false, alloc_scan_none true n _ (hiff.1 h)]

/-- C5 on `mem_init(16)`: `mem_alloc(20)` returns `NULL` and the chain is still the
single free block of size 16. -/
theorem alloc_exhaustion_witness :
    mem_init true true (fun _ => 0) 16 = some pool16 ∧ 0 < 20 ∧
    (mem_alloc true pool16 20).1 = none ∧ (mem_alloc true pool16 20).2 = pool16 ∧
    pool16.block_list = [⟨0, 16, true⟩] :=
  ⟨rfl, by decide, rfl, (alloc_exhaustion pool16 20 (by decide)).2 rfl, rfl⟩

/-! ## Locating a block by its offset -/

theorem exists_first (P : MemBlock → Prop) [DecidablePred P] (l : List MemBlock) :
    (∀ b ∈ l, ¬ P b) ∨
      ∃ pre B post, l = pre ++ B :: post ∧ P B ∧ ∀ b ∈ pre, ¬ P b := by
  induction l with
  | nil => left; simp
  | cons x l ih =>
    by_cases hx : P x
    · right; exact ⟨[], x, l, rfl, hx, by simp⟩
    · rcases ih with h | ⟨pre, B, post, rfl, hB, hpre⟩
      · left
        intro b hb
        rcases List.mem_cons.1 hb with rfl | hb
        · exact hx
        · exact h b hb
      · right
        refine ⟨x :: pre, B, post, rfl, hB, ?_⟩
        intro b hb
        rcases List.mem_cons.1 hb with rfl | hb
        · exact hx
        · exact hpre b hb

/-- In a tiling, the blocks of positive size before a block start strictly below it. -/
theorem Tiles_prefix_lt (pre post : List MemBlock) (B : MemBlock) (o e : Nat)
    (h : Tiles o (pre ++ B :: post) e) (hpos : PositiveSizes pre) :
    ∀ b ∈ pre, b.offset < B.offset := by
  intro b hb
  obtain ⟨m, h1, h2⟩ := (Tiles_append _ _ _ _).1 h
  have := Tiles_block_end_le _ _ _ h1 b hb
  have := hpos b hb
  have := h2.1
  omega

/-- In a tiling, the blocks after a block of positive size start strictly above it. -/
theorem Tiles_suffix_gt (pre post : List MemBlock) (B : MemBlock) (o e : Nat)
    (h : Tiles o (pre ++ B :: post) e) (hpos : 0 < B.size) :
    ∀ b ∈ post, B.offset < b.offset := by
  intro b hb
  obtain ⟨m, h1, h2⟩ := (Tiles_append _ _ _ _).1 h
  have := Tiles_block_end_le _ _ _ h2.2 b hb
  have := h2.1
  omega

theorem PositiveSizes_append (a b : List MemBlock) :
    PositiveSizes (a ++ b) ↔ PositiveSizes a ∧ PositiveSizes b := by
  simp only [PositiveSizes, List.mem_append]
  constructor
  · intro h; exact ⟨fun x hx => h x (Or.inl hx), fun x hx => h x (Or.inr hx)⟩
  · rintro ⟨h1, h2⟩ x (hx | hx)
    · exact h1 x hx
    · exact h2 x hx

theorem PositiveSizes_cons (x : MemBlock) (l : List MemBlock) :
    PositiveSizes (x :: l) ↔ 0 < x.size ∧ PositiveSizes l := by
  simp [PositiveSizes]

/-! ## The scan of `mem_free` -/

theorem free_scan_skip (off : Nat) (prev : Option MemBlock) (pre : List MemBlock)
    (p : MemBlock) (l : List MemBlock) (hpre : ∀ b ∈ pre, b.offset ≠ off)
    (hp : p.offset ≠ off) :
    free_scan off prev (pre ++ p :: l) = prev.toList ++ pre ++ free_scan off (some p) l := by
  induction pre generalizing prev with
  | nil => simp [free_scan, hp]
  | cons a pre ih =>
    have ha : a.offset ≠ off := hpre a (List.mem_cons_self _ _)
    have := ih (some a) (fun b hb => hpre b (List.mem_cons_of_mem _ hb))
    rw [List.cons_append, free_scan, if_neg ha, this]
    simp

theorem free_scan_skip_none (off : Nat) (pre l : List MemBlock)
    (hpre : ∀ b ∈ pre, b.offset ≠ off) :
    free_scan off none (pre ++ l) =
      pre.dropLast ++ free_scan off pre.getLast? l := by
  rcases List.eq_nil_or_concat pre with rfl | ⟨L, b, rfl⟩
  · simp
  · rw [List.concat_eq_append] at hpre ⊢
    have h1 : ∀ x ∈ L, x.offset ≠ off := fun x hx => hpre x (List.mem_append_left _ hx)
    have h2 : b.offset ≠ off := hpre b (by simp)
    rw [List.append_assoc, List.singleton_append, free_scan_skip off none L b l h1 h2]
    simp

/-- Freeing the address of a block that is already free changes nothing. -/
theorem free_scan_free_noop (off : Nat) (prev : Option MemBlock) (pre post : List MemBlock)
    (B : MemBlock) (hpre : ∀ b ∈ pre, b.offset ≠ off) (hB : B.offset = off)
    (hfree : B.is_free = true) :
    free_scan off prev (pre ++ B :: post) = prev.toList ++ (pre ++ B :: post) := by
  induction pre generalizing prev with
  | nil => simp [free_scan, hB, hfree]
  | cons a pre ih =>
    have ha : a.offset ≠ off := hpre a (List.mem_cons_self _ _)
    have := ih (some a) (fun b hb => hpre b (List.mem_cons_of_mem _ hb))
    rw [List.cons_append, free_scan, if_neg ha, this]
    simp

/-- Freeing an address that is no block's offset changes nothing. -/
theorem free_scan_not_found (off : Nat) (prev : Option MemBlock) (l : List MemBlock)
    (h : ∀ b ∈ l, b.offset ≠ off) : free_scan off prev l = prev.toList ++ l := by
  induction l generalizing prev with
  | nil => simp [free_scan]
  | cons a l ih =>
    have ha : a.offset ≠ off := h a (List.mem_cons_self _ _)
    have := ih (some a) (fun b hb => h b (List.mem_cons_of_mem _ hb))
    rw [free_scan, if_neg ha, this]
    simp

/-- Freeing the address of an occupied block: the chain before its predecessor is kept
and the two merges act on predecessor, block and successor. -/
theorem free_scan_at (off : Nat) (pre post : List MemBlock) (B : MemBlock)
    (hpre : ∀ b ∈ pre, b.offset ≠ off) (hB : B.offset = off) (hocc : B.is_free = false) :
    free_scan off none (pre ++ B :: post) =
      pre.dropLast ++ merge_prev pre.getLast? (merge_next { B with is_free := true } post) := by
  rw [free_scan_skip_none off pre _ hpre]
  simp [free_scan, hB, hocc]

/-! ## No two adjacent free blocks -/

theorem NoAdjFree_tail (a : MemBlock) (l : List MemBlock) (h : NoAdjFree (a :: l)) :
    NoAdjFree l := by
  cases l with
  | nil => trivial
  | cons b r => exact h.2

theorem NoAdjFree_suffix (pre l : List MemBlock) (h : NoAdjFree (pre ++ l)) : NoAdjFree l := by
  induction pre with
  | nil => exact h
  | cons a pre ih => exact ih (NoAdjFree_tail a _ h)

theorem NoAdjFree_next (pre r : List MemBlock) (B nx : MemBlock)
    (h : NoAdjFree (pre ++ B :: nx :: r)) (hB : B.is_free = true) : nx.is_free = false := by
  have := (NoAdjFree_suffix pre _ h).1
  simpa [hB] using this

theorem NoAdjFree_prev (pre post : List MemBlock) (p B : MemBlock)
    (h : NoAdjFree (pre ++ p :: B :: post)) (hB : B.is_free = true) : p.is_free = false := by
  have := (NoAdjFree_suffix pre _ h).1
  simpa [hB] using this

/-! ## Allocation followed by release -/

theorem alloc_probe_skip (pre l : List MemBlock) (h : ∀ b ∈ pre, ¬ b.is_free = true) :
    alloc_probe (pre ++ l) = alloc_probe l := by
  induction pre with
  | nil => rfl
  | cons a pre ih =>
    have ha : ¬ a.is_free = true := h a (List.mem_cons_self _ _)
    rw [List.cons_append, alloc_probe, if_neg ha]
    exact ih (fun b hb => h b (List.mem_cons_of_mem _ hb))

theorem alloc_probe_none (l : List MemBlock) (h : ∀ b ∈ l, ¬ b.is_free = true) :
    alloc_probe l = none := by
  have := alloc_probe_skip l [] h
  simpa [alloc_probe] using this

theorem merge_prev_restore (pre post : List MemBlock) (B : MemBlock)
    (hadj : NoAdjFree (pre ++ B :: post)) (hfree : B.is_free = true) :
    pre.dropLast ++ merge_prev pre.getLast? (B :: post) = pre ++ B :: post := by
  rcases List.eq_nil_or_concat pre with rfl | ⟨L, p, rfl⟩
  · simp [merge_prev]
  · rw [List.concat_eq_append] at hadj ⊢
    have hp : p.is_free = false :=
      NoAdjFree_prev L post p B (by simpa using hadj) hfree
    simp [merge_prev, hp]

theorem merge_next_restore (pre post : List MemBlock) (B : MemBlock)
    (hadj : NoAdjFree (pre ++ B :: post)) (hfree : B.is_free = true) :
    merge_next B post = B :: post := by
  cases post with
  | nil => rfl
  | cons nx r =>
    have hnx : nx.is_free = false := NoAdjFree_next pre r B nx hadj hfree
    simp [merge_next, hnx]

theorem free_after_alloc_exact (pre post : List MemBlock) (B : MemBlock)
    (hoff : ∀ b ∈ pre, b.offset ≠ B.offset) (hfree : B.is_free = true)
    (hadj : NoAdjFree (pre ++ B :: post)) :
    free_scan B.offset none (pre ++ { B with is_free := false } :: post) =
      pre ++ B :: post := by
  rw [free_scan_at B.offset pre post { B with is_free := false } hoff rfl rfl]
  have hB : ({ offset := B.offset, size := B.size, is_free := true } : MemBlock) = B := by
    cases B; simp_all
  simp only [hB]
  rw [merge_next_restore pre post B hadj hfree, merge_prev_restore pre post B hadj hfree]

theorem free_after_alloc_split (n : Nat) (pre post : List MemBlock) (B : MemBlock)
    (hoff : ∀ b ∈ pre, b.offset ≠ B.offset) (hfree : B.is_free = true) (hsz : n ≤ B.size)
    (hadj : NoAdjFree (pre ++ B :: post)) :
    free_scan B.offset none
        (pre ++ ⟨B.offset, n, false⟩ :: ⟨B.offset + n, B.size - n, true⟩ :: post) =
      pre ++ B :: post := by
  rw [free_scan_at B.offset pre _ ⟨B.offset, n, false⟩ hoff rfl rfl]
  have hB : ({ offset := B.offset, size := n + (B.size - n), is_free := true } : MemBlock)
      = B := by
    have : n + (B.size - n) = B.size := by omega
    rw [this]; cases B; simp_all
  simp only [merge_next, if_true, hB]
  exact merge_prev_restore pre post B hadj hfree

/-- The blocks before a free block start strictly below it, when the chain tiles a range,
has no two adjacent free blocks and its occupied blocks have positive size. -/
theorem offsets_before_free_block (pre post : List MemBlock) (B : MemBlock) (o e : Nat)
    (hT : Tiles o (pre ++ B :: post) e) (hadj : NoAdjFree (pre ++ B :: post))
    (hocc : OccupiedPositive (pre ++ B :: post)) (hfree : B.is_free = true) :
    ∀ b ∈ pre, b.offset ≠ B.offset := by
  rcases List.eq_nil_or_concat pre with rfl | ⟨L, q, rfl⟩
  · simp
  · rw [List.concat_eq_append] at hT hadj hocc ⊢
    have hq : q.is_free = false := NoAdjFree_prev L post q B (by simpa using hadj) hfree
    have hqpos : 0 < q.size := hocc q (by simp) hq
    obtain ⟨m, hT1, hT2, -⟩ := (Tiles_append _ _ _ _).1 hT
    obtain ⟨m1, hL, hq1, hq2⟩ := (Tiles_append _ _ _ _).1 hT1
    simp only [Tiles_nil] at hq2
    intro b hb
    rcases List.mem_append.1 hb with hb | hb
    · have := Tiles_block_end_le _ _ _ hL b hb
      omega
    · simp only [List.mem_singleton] at hb
      subst hb
      omega

/-- Split/merge inverse on a chain that tiles `[0, pool_size)`, has no two adjacent free
blocks and whose occupied blocks have positive size. -/
theorem alloc_then_free_core (ok : Bool) (s : Pool) (n : Nat) (hT : PoolTiled s)
    (hadj : NoAdjFree s.block_list) (hocc : OccupiedPositive s.block_list) :
    mem_free (mem_alloc ok s n).2 (mem_alloc ok s n).1 = s := by
  obtain ⟨mem, psz, l⟩ := s
  simp only at hadj hocc
  have hT2 : Tiles 0 l psz := hT.2
  by_cases hn : n = 0
  · simp only [mem_alloc, hn, if_true]
    rcases exists_first (fun b => b.is_free = true) l with h | ⟨pre, B, post, rfl, hB, hpre⟩
    · rw [alloc_probe_none l h]; rfl
    · have hoff := offsets_before_free_block pre post B 0 psz hT2 hadj hocc hB
      rw [alloc_probe_skip pre _ hpre]
      simp only [alloc_probe, hB, if_true, mem_free]
      rw [free_scan_free_noop B.offset none pre post B hoff rfl hB]
      rfl
  · simp only [mem_alloc, hn, if_false]
    rcases exists_first (fun b => b.is_free = true ∧ n ≤ b.size) l with
      h | ⟨pre, B, post, rfl, hB, hpre⟩
    · rw [alloc_scan_none ok n l h]; rfl
    · have hoff := offsets_before_free_block pre post B 0 psz hT2 hadj hocc hB.1
      rw [alloc_scan_skip ok n pre _ hpre]
      have hc : B.is_free = true ∧ B.size ≥ n := hB
      by_cases hgt : B.size > n
      · cases ok with
        | false => simp [alloc_scan, hc, hgt, mem_free]
        | true =>
          simp only [alloc_scan, hc, hgt, and_self, if_true, mem_free]
          rw [free_after_alloc_split n pre post B hoff hB.1 hB.2 hadj]
      · simp only [alloc_scan, hc, hgt, and_self, if_true, if_false, mem_free]
        rw [free_after_alloc_exact pre post B hoff hB.1 hadj]

/-! ## Occupied blocks of a reachable chain are never empty -/

theorem OccupiedPositive_cons (x : MemBlock) (l : List MemBlock) :
    OccupiedPositive (x :: l) ↔ (x.is_free = false → 0 < x.size) ∧ OccupiedPositive l := by
  simp [OccupiedPositive]

theorem OccupiedPositive_append (a b : List MemBlock) :
    OccupiedPositive (a ++ b) ↔ OccupiedPositive a ∧ OccupiedPositive b := by
  simp only [OccupiedPositive, List.mem_append]
  constructor
  · intro h; exact ⟨fun x hx => h x (Or.inl hx), fun x hx => h x (Or.inr hx)⟩
  · rintro ⟨h1, h2⟩ x (hx | hx)
    · exact h1 x hx
    · exact h2 x hx

theorem alloc_scan_OccupiedPositive (ok : Bool) (n : Nat) (l : List MemBlock) (hn : 0 < n)
    (h : OccupiedPositive l) : OccupiedPositive (alloc_scan ok n l).2 := by
  induction l with
  | nil => simpa [alloc_scan] using h
  | cons cur rest ih =>
    obtain ⟨h1, h2⟩ := (OccupiedPositive_cons _ _).1 h
    unfold alloc_scan
    split_ifs with hc hgt hok
    · simp only [OccupiedPositive_cons]
      exact ⟨fun _ => hn, by simp, h2⟩
    · exact h
    · refine (OccupiedPositive_cons _ _).2 ⟨fun _ => ?_, h2⟩
      have := hc.2
      simp only
      omega
    · exact (OccupiedPositive_cons _ _).2 ⟨h1, ih h2⟩

theorem merge_next_OccupiedPositive (cur : MemBlock) (rest : List MemBlock)
    (hc : cur.is_free = true) (h : OccupiedPositive rest) :
    OccupiedPositive (merge_next cur rest) := by
  cases rest with
  | nil => simp [merge_next, OccupiedPositive, hc]
  | cons nx r =>
    obtain ⟨-, h2⟩ := (OccupiedPositive_cons _ _).1 h
    simp only [merge_next]
    split_ifs
    · exact (OccupiedPositive_cons _ _).2 ⟨by simp [hc], h2⟩
    · exact (OccupiedPositive_cons _ _).2 ⟨by simp [hc], h⟩

theorem merge_prev_OccupiedPositive (prev : Option MemBlock) (l : List MemBlock)
    (h : OccupiedPositive (prev.toList ++ l)) : OccupiedPositive (merge_prev prev l) := by
  cases l with
  | nil => simpa [merge_prev] using h
  | cons cur rest =>
    cases prev with
    | none => simpa [merge_prev] using h
    | some p =>
      simp only [Option.toList_some, List.singleton_append] at h
      obtain ⟨-, h2⟩ := (OccupiedPositive_cons _ _).1 h
      obtain ⟨-, h4⟩ := (OccupiedPositive_cons _ _).1 h2
      simp only [merge_prev]
      split_ifs with hp
      · exact (OccupiedPositive_cons _ _).2 ⟨by simp [hp], h4⟩
      · exact h

theorem free_scan_OccupiedPositive (off : Nat) (prev : Option MemBlock) (l : List MemBlock)
    (h : OccupiedPositive (prev.toList ++ l)) : OccupiedPositive (free_scan off prev l) := by
  induction l generalizing prev with
  | nil => simpa [free_scan] using h
  | cons cur rest ih =>
    obtain ⟨hp1, hp2⟩ := (OccupiedPositive_append _ _).1 h
    unfold free_scan
    split_ifs with hcur hfree
    · exact h
    · apply merge_prev_OccupiedPositive
      exact (OccupiedPositive_append _ _).2
        ⟨hp1, merge_next_OccupiedPositive _ _ rfl ((OccupiedPositive_cons cur rest).1 hp2).2⟩
    · exact (OccupiedPositive_append _ _).2 ⟨hp1, ih (some cur) (by simpa using hp2)⟩

theorem split_tail_OccupiedPositive (ok : Bool) (n : Nat) (cur : MemBlock)
    (rest : List MemBlock) (r : Bool) (l2 : List MemBlock) (hn : 0 < n)
    (hs : split_tail ok n cur rest = .in_place r l2) (h : OccupiedPositive (cur :: rest)) :
    OccupiedPositive l2 := by
  obtain ⟨h1, h2⟩ := (OccupiedPositive_cons _ _).1 h
  unfold split_tail at hs
  split_ifs at hs with hgt hok <;> simp only [ResizeStep.in_place.injEq] at hs <;>
    obtain ⟨-, rfl⟩ := hs
  · exact (OccupiedPositive_cons _ _).2 ⟨fun _ => hn, (OccupiedPositive_cons _ _).2 ⟨by simp, h2⟩⟩
  · exact h
  · exact h

theorem resize_scan_OccupiedPositive (ok : Bool) (off n : Nat) (l : List MemBlock) (r : Bool)
    (l2 : List MemBlock) (hn : 0 < n) (hs : resize_scan ok off n l = .in_place r l2)
    (h : OccupiedPositive l) : OccupiedPositive l2 := by
  induction l generalizing l2 r with
  | nil => simp [resize_scan] at hs
  | cons cur rest ih =>
    obtain ⟨h1, h2⟩ := (OccupiedPositive_cons _ _).1 h
    unfold resize_scan at hs
    split_ifs at hs with hoff hge
    · exact split_tail_OccupiedPositive _ _ _ _ _ _ hn hs h
    · cases rest with
      | nil => simp at hs
      | cons nx rest2 =>
        simp only at hs
        split_ifs at hs with hc
        · refine split_tail_OccupiedPositive _ _ _ _ _ _ hn hs ?_
          refine (OccupiedPositive_cons _ _).2 ⟨fun _ => ?_, ((OccupiedPositive_cons _ _).1 h2).2⟩
          have := hc.2
          simp only
          omega
    · cases hrec : resize_scan ok off n rest with
      | not_found => rw [hrec] at hs; simp [ResizeStep.push] at hs
      | fallback c => rw [hrec] at hs; simp [ResizeStep.push] at hs
      | in_place r2 l3 =>
        rw [hrec] at hs
        simp only [ResizeStep.push, ResizeStep.in_place.injEq] at hs
        obtain ⟨-, rfl⟩ := hs
        exact (OccupiedPositive_cons _ _).2 ⟨h1, ih _ _ hrec h2⟩

theorem mem_alloc_OccupiedPositive (ok : Bool) (s : Pool) (n : Nat)
    (h : OccupiedPositive s.block_list) : OccupiedPositive (mem_alloc ok s n).2.block_list := by
  unfold mem_alloc
  split_ifs with hn
  · exact h
  · exact alloc_scan_OccupiedPositive ok n _ (by omega) h

theorem mem_free_OccupiedPositive (s : Pool) (p : Option Nat)
    (h : OccupiedPositive s.block_list) : OccupiedPositive (mem_free s p).block_list := by
  cases p with
  | none => exact h
  | some off => exact free_scan_OccupiedPositive off none _ (by simpa using h)

theorem mem_resize_OccupiedPositive (ok : Bool) (s : Pool) (p : Option Nat) (n : Nat)
    (h : OccupiedPositive s.block_list) :
    OccupiedPositive (mem_resize ok s p n).2.block_list := by
  cases p with
  | none => exact mem_alloc_OccupiedPositive ok s n h
  | some off =>
    simp only [mem_resize]
    split_ifs with hn
    · exact mem_free_OccupiedPositive s (some off) h
    · cases hrec : resize_scan ok off n s.block_list with
      | not_found => exact h
      | in_place r l2 => exact resize_scan_OccupiedPositive ok off n _ r l2 (by omega) hrec h
      | fallback c =>
        have ha := mem_alloc_OccupiedPositive ok s n h
        simp only
        cases hq : (mem_alloc ok s n).1 with
        | none => exact ha
        | some q => exact mem_free_OccupiedPositive _ (some off) ha

theorem run_OccupiedPositive (s : Pool) (ops : List Op) (h : OccupiedPositive s.block_list) :
    OccupiedPositive (run s ops).block_list := by
  induction ops generalizing s with
  | nil => exact h
  | cons op ops ih =>
    apply ih
    cases op with
    | alloc ok n => exact mem_alloc_OccupiedPositive ok s n h
    | free p => exact mem_free_OccupiedPositive s p h
    | resize ok p n => exact mem_resize_OccupiedPositive ok s p n h

/-- Every reachable pool tiles `[0, pool_size)` and has no empty occupied block. -/
theorem Reachable_invariants (s : Pool) (hr : Reachable s) :
    PoolTiled s ∧ OccupiedPositive s.block_list := by
  obtain ⟨bytes, size, s0, ops, h0, rfl⟩ := hr
  simp only [mem_init, if_false, Option.some.injEq, Bool.true_eq_false] at h0
  subst h0
  exact ⟨run_PoolTiled _ ops ⟨by simp, by simp⟩,
    run_OccupiedPositive _ ops (by simp [OccupiedPositive])⟩

/-- C6 (split/merge inverse): on every pool state the code can reach from `mem_init`
whose chain has no two adjacent free blocks (it tiles `[0, pool_size)` as every reachable
chain does), and for every `n`, in particular every `n` at most the size of some free
block, `p = mem_alloc(n)` followed by `mem_free(p)` gives back exactly the pool state from
before the allocation (same offsets, sizes and free flags), whatever the outcome of the
descriptor allocation. -/
theorem alloc_then_free_restores (ok : Bool) (s : Pool) (n : Nat) (hr : Reachable s)
    (hadj : NoAdjFree s.block_list) :
    DirectoryTiling s ∧ mem_free (mem_alloc ok s n).2 (mem_alloc ok s n).1 = s := by
  obtain ⟨hT, hocc⟩ := Reachable_invariants s hr
  exact ⟨DirectoryTiling_of_Tiles s hT.1 hT.2, alloc_then_free_core ok s n hT hadj hocc⟩

/-- C6 on the chain with free blocks of sizes 10, 5 and 20, reached from `mem_init(40)`
by four allocations and two releases: `mem_alloc(5)` splits the first block and
`mem_free` of the result merges it back. -/
theorem alloc_then_free_restores_witness :
    Reachable pool_first_fit ∧ NoAdjFree pool_first_fit.block_list ∧
    (mem_alloc true pool_first_fit 5).1 = some 0 ∧
    (mem_alloc true pool_first_fit 5).2.block_list ≠ pool_first_fit.block_list ∧
    mem_free (mem_alloc true pool_first_fit 5).2 (mem_alloc true pool_first_fit 5).1 =
      pool_first_fit :=
  ⟨⟨fun _ => 0, 40, _, calls_first_fit, rfl, rfl⟩, by decide, rfl, by decide,
    (alloc_then_free_restores true pool_first_fit 5
      ⟨fun _ => 0, 40, _, calls_first_fit, rfl, rfl⟩ (by decide)).2⟩

/-! ## Releasing twice -/

theorem merge_next_shape (cur : MemBlock) (rest : List MemBlock) :
    ∃ sz tl, merge_next cur rest = { cur with size := sz } :: tl ∧ ∀ b ∈ tl, b ∈ rest := by
  cases rest with
  | nil => exact ⟨cur.size, [], rfl, by simp⟩
  | cons nx r =>
    simp only [merge_next]
    split_ifs
    · exact ⟨cur.size + nx.size, r, rfl, fun b hb => List.mem_cons_of_mem _ hb⟩
    · exact ⟨cur.size, nx :: r, rfl, fun b hb => hb⟩

theorem first_with_offset (p : Nat) (l : List MemBlock) (B : MemBlock)
    (h : l.find? (fun b => decide (b.offset = p)) = some B) :
    ∃ pre post, l = pre ++ B :: post ∧ B.offset = p ∧ ∀ b ∈ pre, b.offset ≠ p := by
  obtain ⟨hB, pre, post, rfl, hpre⟩ := List.find?_eq_some.1 h
  exact ⟨pre, post, rfl, by simpa using hB, fun b hb => by simpa using hpre b hb⟩

theorem free_scan_twice (p : Nat) (l : List MemBlock) (o e : Nat) (hT : Tiles o l e)
    (hpos : PositiveSizes l) :
    free_scan p none (free_scan p none l) = free_scan p none l := by
  rcases exists_first (fun b => b.offset = p) l with h | ⟨pre, B, post, rfl, hB, hpre⟩
  · have h1 := free_scan_not_found p none l h
    simp only [Option.toList_none, List.nil_append] at h1
    rw [h1, h1]
  · by_cases hfree : B.is_free = true
    · have h1 := free_scan_free_noop p none pre post B hpre hB hfree
      simp only [Option.toList_none, List.nil_append] at h1
      rw [h1, h1]
    · have hocc : B.is_free = false := by simpa using hfree
      have hBpos : 0 < B.size := hpos B (by simp)
      have hpost : ∀ b ∈ post, b.offset ≠ p := fun b hb => by
        have := Tiles_suffix_gt pre post B o e hT hBpos b hb
        omega
      rw [free_scan_at p pre post B hpre hB hocc]
      obtain ⟨sz, tl, hm, htl⟩ := merge_next_shape { B with is_free := true } post
      rw [hm]
      have htl2 : ∀ b ∈ tl, b.offset ≠ p := fun b hb => hpost b (htl b hb)
      rcases List.eq_nil_or_concat pre with rfl | ⟨L, q, rfl⟩
      · have := free_scan_free_noop p none [] tl ⟨B.offset, sz, true⟩ (by simp) hB rfl
        simpa [merge_prev] using this
      · rw [List.concat_eq_append] at hpre ⊢
        have hL : ∀ b ∈ L, b.offset ≠ p := fun b hb => hpre b (List.mem_append_left _ hb)
        have hq : q.offset ≠ p := hpre q (by simp)
        by_cases hqf : q.is_free = true
        · have hnone : ∀ b ∈ L ++ ⟨q.offset, q.size + sz, q.is_free⟩ :: tl, b.offset ≠ p := by
            intro b hb
            rcases List.mem_append.1 hb with hb | hb
            · exact hL b hb
            · rcases List.mem_cons.1 hb with rfl | hb
              · exact hq
              · exact htl2 b hb
          have := free_scan_not_found p none _ hnone
          simpa [merge_prev, hqf] using this
        · have := free_scan_free_noop p none (L ++ [q]) tl ⟨B.offset, sz, true⟩ hpre hB rfl
          simpa [merge_prev, hqf] using this

/-- C7 (idempotent free): if the first block of the chain whose offset is `p` is already
free, `mem_free(p)` leaves the pool unchanged; and on every pool whose chain is a
contiguous tiling with positive block sizes, `mem_free(p)` twice gives the same pool as
`mem_free(p)` once, for every address `p` (`NULL` included). -/
theorem free_idempotent (s : Pool) (p : Nat) :
    (∀ B, s.block_list.find? (fun b => decide (b.offset = p)) = some B → B.is_free = true →
      mem_free s (some p) = s) ∧
    (PoolTiled s → PositiveSizes s.block_list →
      ∀ q : Option Nat, mem_free (mem_free s q) q = mem_free s q) := by
  obtain ⟨mem, psz, l⟩ := s
  refine ⟨fun B hfind hfree => ?_, fun hT hpos q => ?_⟩
  · obtain ⟨pre, post, rfl, hB, hpre⟩ := first_with_offset p l B hfind
    simp only [mem_free]
    rw [free_scan_free_noop p none pre post B hpre hB hfree]
    rfl
  · cases q with
    | none => rfl
    | some q =>
      simp only [mem_free]
      rw [free_scan_twice q l 0 psz hT.2 hpos]

/-- C7 on a pool with three live blocks: offset 15 is already free, so releasing it
changes nothing, and releasing offset 5 twice equals releasing it once. -/
theorem free_idempotent_witness :
    mem_free pool_three_live (some 15) = pool_three_live ∧
    mem_free (mem_free pool_three_live (some 5)) (some 5) =
      mem_free pool_three_live (some 5) ∧
    (mem_free pool_three_live (some 5)).block_list =
      [⟨0, 5, false⟩, ⟨5, 5, true⟩, ⟨10, 5, false⟩, ⟨15, 5, true⟩] :=
  ⟨(free_idempotent pool_three_live 15).1 ⟨15, 5, true⟩ rfl rfl,
    (free_idempotent pool_three_live 5).2 (by decide)
      (by decide) (some 5), rfl⟩

/-! ## The scan of `mem_resize` -/

theorem resize_scan_cons_ne (ok : Bool) (off n : Nat) (cur : MemBlock) (rest : List MemBlock)
    (h : cur.offset ≠ off) :
    resize_scan ok off n (cur :: rest) = (resize_scan ok off n rest).push cur := by
  rw [resize_scan.eq_def]
  simp only [if_neg h]

theorem resize_scan_skip (ok : Bool) (off n : Nat) (pre l : List MemBlock)
    (hpre : ∀ b ∈ pre, b.offset ≠ off) :
    resize_scan ok off n (pre ++ l) = pre.foldr ResizeStep.push (resize_scan ok off n l) := by
  induction pre with
  | nil => rfl
  | cons a pre ih =>
    have ha : a.offset ≠ off := hpre a (List.mem_cons_self _ _)
    have := ih (fun b hb => hpre b (List.mem_cons_of_mem _ hb))
    rw [List.cons_append, resize_scan_cons_ne ok off n a _ ha, this]
    rfl

@[simp] theorem foldr_push_in_place (pre : List MemBlock) (ret : Bool) (l : List MemBlock) :
    pre.foldr ResizeStep.push (.in_place ret l) = .in_place ret (pre ++ l) := by
  induction pre with
  | nil => rfl
  | cons a pre ih => simp [ih, ResizeStep.push]

@[simp] theorem foldr_push_not_found (pre : List MemBlock) :
    pre.foldr ResizeStep.push .not_found = .not_found := by
  induction pre with
  | nil => rfl
  | cons a pre ih => simp [ih, ResizeStep.push]

@[simp] theorem foldr_push_fallback (pre : List MemBlock) (c : Nat) :
    pre.foldr ResizeStep.push (.fallback c) = .fallback c := by
  induction pre with
  | nil => rfl
  | cons a pre ih => simp [ih, ResizeStep.push]

/-- Shrinking or keeping the size of the block found at `off` (lines 128-143). -/
theorem mem_resize_shrink (s : Pool) (off m : Nat) (pre rest : List MemBlock) (C : MemBlock)
    (hd : s.block_list = pre ++ C :: rest) (hpre : ∀ b ∈ pre, b.offset ≠ off)
    (hC : C.offset = off) (hm : 0 < m) (hle : m ≤ C.size) :
    mem_resize true s (some off) m =
      (some off, { s with block_list := pre ++
        (if C.size = m then [C]
         else [{ C with size := m }, ⟨C.offset + m, C.size - m, true⟩]) ++ rest }) := by
  have h0 : m ≠ 0 := by omega
  have hge : C.size ≥ m := hle
  simp only [mem_resize, h0, if_false, hd, resize_scan_skip true off m pre _ hpre]
  by_cases he : C.size = m
  · have hgt : ¬ C.size > m := by omega
    simp [resize_scan, hC, hge, split_tail, hgt, he]
  · have hgt : C.size > m := by omega
    simp [resize_scan, hC, hge, split_tail, hgt, he]

/-- Growing the block found at `off` into its free successor (lines 146-166). -/
theorem mem_resize_absorb (s : Pool) (off m : Nat) (pre rest : List MemBlock)
    (C N : MemBlock) (hd : s.block_list = pre ++ C :: N :: rest)
    (hpre : ∀ b ∈ pre, b.offset ≠ off) (hC : C.offset = off) (hlt : C.size < m)
    (hN : N.is_free = true) (hsum : C.size + N.size ≥ m) :
    mem_resize true s (some off) m =
      (some off, { s with block_list := pre ++ { C with size := m } ::
        ((if C.size + N.size > m then [⟨C.offset + m, C.size + N.size - m, true⟩]
          else []) ++ rest) }) := by
  have h0 : m ≠ 0 := by omega
  have hge : ¬ C.size ≥ m := by omega
  have hc : N.is_free = true ∧ C.size + N.size ≥ m := ⟨hN, hsum⟩
  simp only [mem_resize, h0, if_false, hd, resize_scan_skip true off m pre _ hpre]
  by_cases hgt : C.size + N.size > m
  · simp [resize_scan, hC, hge, hc, split_tail, hgt]
  · have he : C.size + N.size = m := by omega
    simp [resize_scan, hC, hge, hc, split_tail, hgt, he]

/-- Growing the block found at `off` when its successor cannot be absorbed
(lines 167-175): allocate, copy, release. -/
theorem mem_resize_fallback (ok : Bool) (s : Pool) (off m : Nat) (pre rest : List MemBlock)
    (C : MemBlock) (hd : s.block_list = pre ++ C :: rest)
    (hpre : ∀ b ∈ pre, b.offset ≠ off) (hC : C.offset = off) (hlt : C.size < m)
    (hno : ∀ N r, rest = N :: r → ¬ (N.is_free = true ∧ C.size + N.size ≥ m)) :
    mem_resize ok s (some off) m =
      match (mem_alloc ok s m).1 with
      | none => (none, (mem_alloc ok s m).2)
      | some q =>
        (some q,
          mem_free { (mem_alloc ok s m).2 with
            memory_pool := memcpy (mem_alloc ok s m).2.memory_pool q off C.size }
            (some off)) := by
  have h0 : m ≠ 0 := by omega
  have hge : ¬ C.size ≥ m := by omega
  have hscan : resize_scan ok off m s.block_list = .fallback C.size := by
    rw [hd, resize_scan_skip ok off m pre _ hpre]
    cases rest with
    | nil => simp [resize_scan, hC, hge]
    | cons N r =>
      have := hno N r rfl
      simp [resize_scan, hC, hge, this]
  simp only [mem_resize, h0, if_false, hscan]

/-- C9 (grow by neighbour absorption): when the first block `B` at offset `p` has
`B.size < n` and its successor `N` is free with `B.size + N.size ≥ n`, `mem_resize(p, n)`
returns `p`, replaces `B` and `N` by `B` resized to `n` followed, only when
`B.size + N.size > n`, by a free block `(B.offset + n, B.size + N.size - n)`, keeps every
other block, and leaves the arena content untouched (descriptor allocation
succeeding). -/
theorem resize_grow_absorbs_neighbour (s : Pool) (p n : Nat) (pre post : List MemBlock)
    (B N : MemBlock) (hd : s.block_list = pre ++ B :: N :: post)
    (hpre : ∀ b ∈ pre, b.offset ≠ p) (hB : B.offset = p) (hlt : B.size < n)
    (hN : N.is_free = true) (hsum : B.size + N.size ≥ n) :
    (mem_resize true s (some p) n).1 = some p ∧
    (mem_resize true s (some p) n).2.block_list =
      pre ++ { B with size := n } ::
        ((if B.size + N.size > n then [⟨B.offset + n, B.size + N.size - n, true⟩] else [])
          ++ post) ∧
    (mem_resize true s (some p) n).2.memory_pool = s.memory_pool ∧
    (mem_resize true s (some p) n).2.pool_size = s.pool_size := by
  rw [mem_resize_absorb s p n pre post B N hd hpre hB hlt hN hsum]
  exact ⟨rfl, rfl, rfl, rfl⟩

/-- C9 on `mem_init(20)`, `a = mem_alloc(10)`: `mem_resize(a, 15)` returns `a` and leaves
one occupied block of size 15 and one free block of size 5. -/
theorem resize_grow_absorbs_neighbour_witness :
    mem_init true true (fun _ => 0) 20 = some pool20 ∧
    mem_alloc true pool20 10 = (some 0, pool20_half) ∧
    (mem_resize true pool20_half (some 0) 15).1 = some 0 ∧
    (mem_resize true pool20_half (some 0) 15).2.block_list =
      [⟨0, 15, false⟩, ⟨15, 5, true⟩] :=
  ⟨rfl, rfl,
    (resize_grow_absorbs_neighbour pool20_half 0 15 [] [] ⟨0, 10, false⟩ ⟨10, 10, true⟩ rfl
      (by simp) rfl (by decide) rfl (by decide)).1,
    (resize_grow_absorbs_neighbour pool20_half 0 15 [] [] ⟨0, 10, false⟩ ⟨10, 10, true⟩ rfl
      (by simp) rfl (by decide) rfl (by decide)).2.1⟩

/-- C10 (shrink or exact resize): when the first block at offset `p` is `B` and
`0 < n ≤ B.size`, `mem_resize(p, n)` returns `p`; the pool is unchanged when
`n = B.size`; when `n < B.size` the chain is the original with `B` replaced by
`(B.offset, n)` with `B`'s flag followed by a new free block
`(B.offset + n, B.size - n)`; the arena content is untouched in both cases (descriptor
allocation succeeding). -/
theorem resize_shrink_or_exact (s : Pool) (p n : Nat) (pre post : List MemBlock)
    (B : MemBlock) (hd : s.block_list = pre ++ B :: post)
    (hpre : ∀ b ∈ pre, b.offset ≠ p) (hB : B.offset = p) (hn : 0 < n) (hle : n ≤ B.size) :
    (mem_resize true s (some p) n).1 = some p ∧
    (n = B.size → (mem_resize true s (some p) n).2 = s) ∧
    (n < B.size → (mem_resize true s (some p) n).2.block_list =
      pre ++ { B with size := n } :: ⟨B.offset + n, B.size - n, true⟩ :: post) ∧
    (mem_resize true s (some p) n).2.memory_pool = s.memory_pool ∧
    (mem_resize true s (some p) n).2.pool_size = s.pool_size := by
  rw [mem_resize_shrink s p n pre post B hd hpre hB hn hle]
  refine ⟨rfl, fun he => ?_, fun hlt => ?_, rfl, rfl⟩
  · obtain ⟨mem, psz, l⟩ := s
    simp only at hd
    simp [he, hd]
  · have hne : B.size ≠ n := by omega
    simp [hne]

/-- C10 on a pool with three live blocks: shrinking the block at offset 5 from 5 to 2
bytes returns the same address and inserts a free block of 3 bytes at offset 7. -/
theorem resize_shrink_or_exact_witness :
    (mem_resize true pool_three_live (some 5) 2).1 = some 5 ∧
    (mem_resize true pool_three_live (some 5) 2).2.block_list =
      [⟨0, 5, false⟩, ⟨5, 2, false⟩, ⟨7, 3, true⟩, ⟨10, 5, false⟩, ⟨15, 5, true⟩] :=
  ⟨(resize_shrink_or_exact pool_three_live 5 2 [⟨0, 5, false⟩]
      [⟨10, 5, false⟩, ⟨15, 5, true⟩] ⟨5, 5, false⟩ rfl (by simp) rfl (by decide)
      (by decide)).1,
    (resize_shrink_or_exact pool_three_live 5 2 [⟨0, 5, false⟩]
      [⟨10, 5, false⟩, ⟨15, 5, true⟩] ⟨5, 5, false⟩ rfl (by simp) rfl (by decide)
      (by decide)).2.2.1 (by decide)⟩

/-! ## Blocks that survive a release, and a resize round trip -/

/-- In a tiling with positive sizes a member block is the first one at its offset. -/
theorem first_at_own_offset (l : List MemBlock) (o e : Nat) (hT : Tiles o l e)
    (hpos : PositiveSizes l) (B : MemBlock) (hB : B ∈ l) :
    ∃ pre post, l = pre ++ B :: post ∧ ∀ b ∈ pre, b.offset ≠ B.offset := by
  obtain ⟨pre, post, rfl⟩ := List.append_of_mem hB
  refine ⟨pre, post, rfl, fun b hb => ?_⟩
  have := Tiles_prefix_lt pre post B o e hT ((PositiveSizes_append _ _).1 hpos).1 b hb
  omega

/-- In a tiling with positive sizes two member blocks with the same offset are equal. -/
theorem offset_injective (l : List MemBlock) (o e : Nat) (hT : Tiles o l e)
    (hpos : PositiveSizes l) (b1 b2 : MemBlock) (h1 : b1 ∈ l) (h2 : b2 ∈ l)
    (h : b1.offset = b2.offset) : b1 = b2 := by
  obtain ⟨pre, post, rfl⟩ := List.append_of_mem h1
  have hp := (PositiveSizes_append _ _).1 hpos
  rcases List.mem_append.1 h2 with h2 | h2
  · have := Tiles_prefix_lt pre post b1 o e hT hp.1 b2 h2
    omega
  · rcases List.mem_cons.1 h2 with h2 | h2
    · exact h2.symm
    · have := Tiles_suffix_gt pre post b1 o e hT (hp.2 b1 (by simp)) b2 h2
      omega

theorem merge_next_keeps_occupied (cur : MemBlock) (rest : List MemBlock) (b : MemBlock)
    (hb : b ∈ rest) (hocc : b.is_free = false) :
    ∃ c tl, merge_next cur rest = c :: tl ∧ b ∈ tl ∧ c.is_free = cur.is_free := by
  cases rest with
  | nil => simp at hb
  | cons nx r =>
    simp only [merge_next]
    split_ifs with hnx
    · refine ⟨_, r, rfl, ?_, rfl⟩
      rcases List.mem_cons.1 hb with rfl | hb
      · simp [hocc] at hnx
      · exact hb
    · exact ⟨_, _, rfl, hb, rfl⟩

theorem merge_prev_keeps_tail (prev : Option MemBlock) (c : MemBlock) (tl : List MemBlock)
    (b : MemBlock) (hb : b ∈ tl) : b ∈ merge_prev prev (c :: tl) := by
  cases prev with
  | none => simp [merge_prev, hb]
  | some p => simp only [merge_prev]; split_ifs <;> simp [hb]

theorem merge_prev_keeps_prev (p : MemBlock) (l : List MemBlock) (hocc : p.is_free = false) :
    p ∈ merge_prev (some p) l := by
  cases l with
  | nil => simp [merge_prev]
  | cons c tl => simp [merge_prev, hocc]

/-- The loop of `mem_free` keeps every occupied block whose offset is not the one freed. -/
theorem free_scan_keeps_occupied (off : Nat) (prev : Option MemBlock) (l : List MemBlock)
    (b : MemBlock) (hb : b ∈ prev.toList ++ l) (hocc : b.is_free = false)
    (hoff : b.offset ≠ off) : b ∈ free_scan off prev l := by
  induction l generalizing prev with
  | nil => simpa [free_scan] using hb
  | cons cur rest ih =>
    unfold free_scan
    split_ifs with hcur hfree
    · exact hb
    · rcases List.mem_append.1 hb with hb | hb
      · have : prev = some b := by
          cases prev with
          | none => simp at hb
          | some q => simp at hb; simp [hb]
        rw [this]
        exact merge_prev_keeps_prev b _ hocc
      · rcases List.mem_cons.1 hb with rfl | hb
        · exact absurd hcur hoff
        · obtain ⟨c, tl, hm, hbt, -⟩ :=
            merge_next_keeps_occupied { cur with is_free := true } rest b hb hocc
          rw [hm]
          exact merge_prev_keeps_tail prev c tl b hbt
    · rcases List.mem_append.1 hb with hb | hb
      · exact List.mem_append_left _ hb
      · exact List.mem_append_right _ (ih (some cur) (by simpa using hb))

theorem alloc_scan_PositiveSizes (ok : Bool) (n : Nat) (l : List MemBlock) (hn : 0 < n)
    (hpos : PositiveSizes l) : PositiveSizes (alloc_scan ok n l).2 := by
  induction l with
  | nil => simpa [alloc_scan] using hpos
  | cons cur rest ih =>
    obtain ⟨h1, h2⟩ := (PositiveSizes_cons _ _).1 hpos
    unfold alloc_scan
    split_ifs with hc hgt hok
    · simp only [PositiveSizes_cons]
      exact ⟨hn, by omega, h2⟩
    · exact hpos
    · exact (PositiveSizes_cons _ _).2 ⟨h1, h2⟩
    · exact (PositiveSizes_cons _ _).2 ⟨h1, ih h2⟩

theorem merge_next_PositiveSizes (cur : MemBlock) (rest : List MemBlock)
    (hpos : PositiveSizes (cur :: rest)) : PositiveSizes (merge_next cur rest) := by
  cases rest with
  | nil => exact hpos
  | cons nx r =>
    obtain ⟨h1, h2⟩ := (PositiveSizes_cons _ _).1 hpos
    obtain ⟨h3, h4⟩ := (PositiveSizes_cons _ _).1 h2
    simp only [merge_next]
    split_ifs
    · exact (PositiveSizes_cons _ _).2 ⟨by simp only; omega, h4⟩
    · exact hpos

theorem merge_prev_PositiveSizes (prev : Option MemBlock) (l : List MemBlock)
    (hpos : PositiveSizes (prev.toList ++ l)) : PositiveSizes (merge_prev prev l) := by
  cases l with
  | nil => simpa [merge_prev] using hpos
  | cons cur rest =>
    cases prev with
    | none => simpa [merge_prev] using hpos
    | some p =>
      simp only [Option.toList_some, List.singleton_append] at hpos
      obtain ⟨h1, h2⟩ := (PositiveSizes_cons _ _).1 hpos
      obtain ⟨h3, h4⟩ := (PositiveSizes_cons _ _).1 h2
      simp only [merge_prev]
      split_ifs
      · exact (PositiveSizes_cons _ _).2 ⟨by simp only; omega, h4⟩
      · exact hpos

theorem free_scan_PositiveSizes (off : Nat) (prev : Option MemBlock) (l : List MemBlock)
    (hpos : PositiveSizes (prev.toList ++ l)) : PositiveSizes (free_scan off prev l) := by
  induction l generalizing prev with
  | nil => simpa [free_scan] using hpos
  | cons cur rest ih =>
    obtain ⟨hp1, hp2⟩ := (PositiveSizes_append _ _).1 hpos
    unfold free_scan
    split_ifs with hcur hfree
    · exact hpos
    · apply merge_prev_PositiveSizes
      refine (PositiveSizes_append _ _).2 ⟨hp1, merge_next_PositiveSizes _ _ ?_⟩
      exact (PositiveSizes_cons _ _).2 ((PositiveSizes_cons cur rest).1 hp2)
    · exact (PositiveSizes_append _ _).2 ⟨hp1, ih (some cur) (by simpa using hp2)⟩

theorem mem_alloc_memory_pool (ok : Bool) (s : Pool) (n : Nat) :
    (mem_alloc ok s n).2.memory_pool = s.memory_pool := by
  unfold mem_alloc; split_ifs <;> rfl

/-- A successful `mem_alloc(n)`, `n > 0`, returns the offset of a block that was free and
leaves an occupied block of exactly `n` bytes at that offset. -/
theorem mem_alloc_some (ok : Bool) (s : Pool) (n q : Nat) (hn : 0 < n)
    (h : (mem_alloc ok s n).1 = some q) :
    (⟨q, n, false⟩ : MemBlock) ∈ (mem_alloc ok s n).2.block_list ∧
    ∃ Q ∈ s.block_list, Q.is_free = true ∧ Q.offset = q := by
  have h0 : n ≠ 0 := by omega
  simp only [mem_alloc, h0, if_false] at h ⊢
  rcases exists_first (fun b => b.is_free = true ∧ n ≤ b.size) s.block_list with
    hnone | ⟨pre, B, post, hd, hB, hpre⟩
  · rw [alloc_scan_none ok n _ hnone] at h
    simp at h
  · rw [hd, alloc_scan_skip ok n pre _ hpre] at h ⊢
    have hc : B.is_free = true ∧ B.size ≥ n := hB
    have hmem : B ∈ pre ++ B :: post := by simp
    by_cases hgt : B.size > n
    · cases ok with
      | false => simp [alloc_scan, hc, hgt] at h
      | true =>
        simp only [alloc_scan, hc, hgt, and_self, if_true, Option.some.injEq] at h ⊢
        subst h
        exact ⟨by simp, B, hmem, hB.1, rfl⟩
    · have he : B.size = n := by omega
      simp only [alloc_scan, hc, hgt, and_self, if_true, if_false, Option.some.injEq] at h ⊢
      subst h
      refine ⟨?_, B, hmem, hB.1, rfl⟩
      simp [he]

theorem memcpy_dst (mem : Nat → Nat) (dst src len i : Nat) (hi : i < len) :
    memcpy mem dst src len (dst + i) = mem (src + i) := by
  have h : dst ≤ dst + i ∧ dst + i < dst + len := ⟨by omega, by omega⟩
  simp only [memcpy, h, and_self, if_true, Nat.add_sub_cancel_left]

theorem resize_found_ge (s : Pool) (off m : Nat) (pre rest : List MemBlock) (C : MemBlock)
    (hd : s.block_list = pre ++ C :: rest) (hpre : ∀ b ∈ pre, b.offset ≠ off)
    (hC : C.offset = off) (hm : 0 < m) (hle : m ≤ C.size) :
    (mem_resize true s (some off) m).1 = some off ∧
    (mem_resize true s (some off) m).2.memory_pool = s.memory_pool := by
  rw [mem_resize_shrink s off m pre rest C hd hpre hC hm hle]
  exact ⟨rfl, rfl⟩

theorem resize_found_absorb (s : Pool) (off m : Nat) (pre rest : List MemBlock)
    (C N : MemBlock) (hd : s.block_list = pre ++ C :: N :: rest)
    (hpre : ∀ b ∈ pre, b.offset ≠ off) (hC : C.offset = off) (hlt : C.size < m)
    (hN : N.is_free = true) (hsum : C.size + N.size ≥ m) :
    (mem_resize true s (some off) m).1 = some off ∧
    (mem_resize true s (some off) m).2.memory_pool = s.memory_pool := by
  rw [mem_resize_absorb s off m pre rest C N hd hpre hC hlt hN hsum]
  exact ⟨rfl, rfl⟩

/-- Round trip through the allocate-copy-release branch. -/
theorem round_trip_fallback (s : Pool) (p n r : Nat) (pre post : List MemBlock) (B : MemBlock)
    (hT : PoolTiled s) (hpos : PositiveSizes s.block_list)
    (hd : s.block_list = pre ++ B :: post) (hpre : ∀ b ∈ pre, b.offset ≠ p)
    (hoff : B.offset = p) (hocc : B.is_free = false) (hlt : B.size < n)
    (hno : ∀ N r, post = N :: r → ¬ (N.is_free = true ∧ B.size + N.size ≥ n))
    (hr : (mem_resize true s (some p) n).1 = some r) :
    (mem_resize true (mem_resize true s (some p) n).2 (some r) B.size).1 = some r ∧
    ∀ i, i < B.size →
      (mem_resize true (mem_resize true s (some p) n).2 (some r) B.size).2.memory_pool (r + i)
        = s.memory_pool (p + i) := by
  have hBmem : B ∈ s.block_list := by rw [hd]; simp
  have hBpos : 0 < B.size := hpos B hBmem
  have hn : 0 < n := by omega
  have hfb := mem_resize_fallback true s p n pre post B hd hpre hoff hlt hno
  cases hq : (mem_alloc true s n).1 with
  | none => rw [hfb, hq] at hr; simp at hr
  | some q =>
    rw [hq] at hfb
    simp only at hfb
    have hrq : q = r := by rw [hfb] at hr; simpa using hr
    subst hrq
    obtain ⟨hQn, Q, hQmem, hQfree, hQoff⟩ := mem_alloc_some true s n q hn hq
    have hqp : q ≠ p := by
      intro h
      have := offset_injective _ _ _ hT.2 hpos Q B hQmem hBmem (by omega)
      rw [this, hocc] at hQfree
      simp at hQfree
    have hTa := mem_alloc_PoolTiled true s n hT
    have hpa : PositiveSizes (mem_alloc true s n).2.block_list := by
      have h0 : n ≠ 0 := by omega
      simp only [mem_alloc, h0, if_false]
      exact alloc_scan_PositiveSizes true n _ hn hpos
    have hps : (mem_alloc true s n).2.pool_size = s.pool_size := mem_alloc_pool_size true s n
    have hl1 : (mem_resize true s (some p) n).2.block_list =
        free_scan p none (mem_alloc true s n).2.block_list := by rw [hfb]; rfl
    have hm1 : (mem_resize true s (some p) n).2.memory_pool =
        memcpy s.memory_pool q p B.size := by
      rw [hfb]
      simp only [mem_free]
      rw [mem_alloc_memory_pool]
    have hT1 : Tiles 0 (mem_resize true s (some p) n).2.block_list s.pool_size := by
      rw [hl1]
      exact free_scan_Tiles _ _ _ _ _ (by simpa [hps] using hTa.2)
    have hp1 : PositiveSizes (mem_resize true s (some p) n).2.block_list := by
      rw [hl1]
      exact free_scan_PositiveSizes _ _ _ (by simpa using hpa)
    have hQ1 : (⟨q, n, false⟩ : MemBlock) ∈ (mem_resize true s (some p) n).2.block_list := by
      rw [hl1]
      exact free_scan_keeps_occupied p none _ _ (by simpa using hQn) rfl hqp
    obtain ⟨pre1, post1, hd1, hpre1⟩ := first_at_own_offset _ _ _ hT1 hp1 _ hQ1
    have h2 := resize_found_ge (mem_resize true s (some p) n).2 q B.size pre1 post1
      ⟨q, n, false⟩ hd1 hpre1 rfl hBpos (by simp only; omega)
    refine ⟨h2.1, fun i hi => ?_⟩
    rw [h2.2, hm1]
    exact memcpy_dst _ _ _ _ _ hi

/-- C8 (resize round trip): on a pool whose chain tiles `[0, pool_size)` with positive
block sizes, for the occupied block `B` at offset `p` and `n > 0`, whenever
`r = mem_resize(p, n)` is not `NULL`, `mem_resize(r, B.size)` is not `NULL` either and
all `B.size` arena bytes from the address it returns equal the bytes that were at `p`
before the first call (descriptor allocations succeeding); shrink, neighbour absorption
and allocate-copy-release are all covered. -/
theorem resize_round_trip (s : Pool) (p n r : Nat) (B : MemBlock) (hT : PoolTiled s)
    (hpos : PositiveSizes s.block_list) (hB : B ∈ s.block_list) (hoff : B.offset = p)
    (hocc : B.is_free = false) (hn : 0 < n)
    (hr : (mem_resize true s (some p) n).1 = some r) :
    ∃ r2, (mem_resize true (mem_resize true s (some p) n).2 (some r) B.size).1 = some r2 ∧
      ∀ i, i < B.size →
        (mem_resize true (mem_resize true s (some p) n).2 (some r) B.size).2.memory_pool
          (r2 + i) = s.memory_pool (p + i) := by
  obtain ⟨pre, post, hd, hpre⟩ := first_at_own_offset _ _ _ hT.2 hpos B hB
  rw [hoff] at hpre
  have hBpos : 0 < B.size := hpos B hB
  by_cases hle : n ≤ B.size
  · have h1 := mem_resize_shrink s p n pre post B hd hpre hoff hn hle
    have hrp : r = p := by rw [h1] at hr; simpa using hr.symm
    subst hrp
    have hm1 : (mem_resize true s (some r) n).2.memory_pool = s.memory_pool := by rw [h1]
    by_cases he : B.size = n
    · have hd1 : (mem_resize true s (some r) n).2.block_list = pre ++ B :: post := by
        rw [h1]; simp [he]
      have h2 := resize_found_ge _ r B.size pre post B hd1 hpre hoff hBpos (le_refl _)
      exact ⟨r, h2.1, fun i _ => by rw [h2.2, hm1]⟩
    · have hd1 : (mem_resize true s (some r) n).2.block_list =
          pre ++ { B with size := n } :: ⟨B.offset + n, B.size - n, true⟩ :: post := by
        rw [h1]; simp [he]
      have h2 := resize_found_absorb _ r B.size pre post _ _ hd1 hpre hoff
        (by simp only; omega) rfl (by simp only; omega)
      exact ⟨r, h2.1, fun i _ => by rw [h2.2, hm1]⟩
  · have hlt : B.size < n := by omega
    by_cases hc : ∃ N rest, post = N :: rest ∧ N.is_free = true ∧ B.size + N.size ≥ n
    · obtain ⟨N, rest, rfl, hN, hsum⟩ := hc
      have h1 := mem_resize_absorb s p n pre rest B N hd hpre hoff hlt hN hsum
      have hrp : r = p := by rw [h1] at hr; simpa using hr.symm
      subst hrp
      have hm1 : (mem_resize true s (some r) n).2.memory_pool = s.memory_pool := by rw [h1]
      have hd1 : (mem_resize true s (some r) n).2.block_list = pre ++ { B with size := n } ::
          ((if B.size + N.size > n then [⟨B.offset + n, B.size + N.size - n, true⟩]
            else []) ++ rest) := by rw [h1]
      have h2 := resize_found_ge _ r B.size pre _ _ hd1 hpre hoff hBpos (by simp only; omega)
      exact ⟨r, h2.1, fun i _ => by rw [h2.2, hm1]⟩
    · have hno : ∀ N r, post = N :: r → ¬ (N.is_free = true ∧ B.size + N.size ≥ n) :=
        fun N r hpost hN => hc ⟨N, r, hpost, hN⟩
      have h2 := round_trip_fallback s p n r pre post B hT hpos hd hpre hoff hocc hlt hno hr
      exact ⟨r, h2.1, h2.2⟩

/-- C8 on a pool where the block at offset 0 (bytes 1..5) must move to grow to 8 bytes:
the first call returns offset 10, the second keeps it, and the five bytes there are the
original ones. -/
theorem resize_round_trip_witness :
    (mem_resize true pool_must_move (some 0) 8).1 = some 10 ∧
    ∃ r2, (mem_resize true (mem_resize true pool_must_move (some 0) 8).2 (some 10) 5).1
        = some r2 ∧
      ∀ i, i < 5 →
        (mem_resize true (mem_resize true pool_must_move (some 0) 8).2 (some 10) 5).2.memory_pool
          (r2 + i) = pool_must_move.memory_pool (0 + i) :=
  ⟨rfl, resize_round_trip pool_must_move 0 8 10 ⟨0, 5, false⟩
    (by decide) (by decide)
    (by simp [pool_must_move]) rfl rfl (by decide) rfl⟩

/-! ## Failed grow, delegation, probe, unknown address -/

/-- C11 (failed grow is atomic): when the first block `B` at offset `p` has `B.size < n`,
cannot absorb its successor (none, occupied, or too small) and no free block has size at
least `n`, `mem_resize(p, n)` returns `NULL` and the whole pool state (chain and arena
content) is unchanged, whatever the outcome of the descriptor allocation. -/
theorem failed_grow_is_atomic (ok : Bool) (s : Pool) (p n : Nat) (pre post : List MemBlock)
    (B : MemBlock) (hd : s.block_list = pre ++ B :: post)
    (hpre : ∀ b ∈ pre, b.offset ≠ p) (hB : B.offset = p) (hlt : B.size < n)
    (hno : ∀ N r, post = N :: r → ¬ (N.is_free = true ∧ B.size + N.size ≥ n))
    (hfull : ∀ b ∈ s.block_list, ¬ (b.is_free = true ∧ n ≤ b.size)) :
    mem_resize ok s (some p) n = (none, s) := by
  have h0 : n ≠ 0 := by omega
  rw [mem_resize_fallback ok s p n pre post B hd hpre hB hlt hno]
  simp only [mem_alloc, h0, if_false, alloc_scan_none ok n _ hfull]

/-- C11 on a pool without any free block: growing the block at offset 5 from 5 to 8
bytes fails and nothing changes. -/
theorem failed_grow_is_atomic_witness :
    mem_resize true pool_full (some 5) 8 = (none, pool_full) :=
  failed_grow_is_atomic true pool_full 5 8 [⟨0, 5, false⟩] [⟨10, 10, false⟩] ⟨5, 5, false⟩
    rfl (by simp) rfl (by decide) (by simp) (by simp [pool_full])

/-- C12 (resize delegation): `mem_resize(NULL, n)` is `mem_alloc(n)` (same returned address,
same pool state) for every `n`, zero included; and for a non-`NULL` address `p`,
`mem_resize(p, 0)` returns `NULL` and leaves the pool state of `mem_free(p)`. -/
theorem resize_delegation (ok : Bool) (s : Pool) :
    (∀ n, mem_resize ok s none n = mem_alloc ok s n) ∧
    (∀ p, (mem_resize ok s (some p) 0).1 = none ∧
      (mem_resize ok s (some p) 0).2 = mem_free s (some p)) := by
  refine ⟨fun n => rfl, fun p => ?_⟩
  simp [mem_resize]

theorem alloc_probe_eq_find (l : List MemBlock) :
    alloc_probe l = (l.find? (fun b => b.is_free)).map (fun b => b.offset) := by
  induction l with
  | nil => rfl
  | cons cur rest ih =>
    by_cases hc : cur.is_free = true
    · simp [alloc_probe, List.find?_cons, hc]
    · have hc2 : cur.is_free = false := by simpa using hc
      simp [alloc_probe, List.find?_cons, hc2, ih]

/-- C13 (zero-size allocation is a probe): `mem_alloc(0)` returns the start address of the
first free block in chain order (`NULL` when no block is free) and leaves the pool state
unchanged; hence a following `mem_alloc(n)` with `0 < n ≤` the size of that block returns
the same address. -/
theorem zero_size_alloc_is_probe (ok : Bool) (s : Pool) :
    (mem_alloc ok s 0).1 = (s.block_list.find? (fun b => b.is_free)).map (fun b => b.offset) ∧
    (mem_alloc ok s 0).2 = s ∧
    ∀ B n, s.block_list.find? (fun b => b.is_free) = some B → 0 < n → n ≤ B.size →
      (mem_alloc true (mem_alloc ok s 0).2 n).1 = (mem_alloc ok s 0).1 := by
  have h1 : (mem_alloc ok s 0).1 =
      (s.block_list.find? (fun b => b.is_free)).map (fun b => b.offset) := by
    simp only [mem_alloc, if_true]
    exact alloc_probe_eq_find _
  have h2 : (mem_alloc ok s 0).2 = s := by simp [mem_alloc]
  refine ⟨h1, h2, fun B n hfind hn hle => ?_⟩
  rw [h1, h2, hfind]
  obtain ⟨hB, pre, post, hd, hpre⟩ := List.find?_eq_some.1 hfind
  have h0 : n ≠ 0 := by omega
  have hpre2 : ∀ b ∈ pre, ¬ (b.is_free = true ∧ n ≤ b.size) := fun b hb hq => by
    have := hpre b hb
    simp [hq.1] at this
  have hc : B.is_free = true ∧ B.size ≥ n := ⟨hB, hle⟩
  simp only [mem_alloc, h0, if_false, hd, alloc_scan_skip true n pre _ hpre2]
  by_cases hgt : B.size > n
  · simp [alloc_scan, hc, hgt]
  · simp [alloc_scan, hc, hgt]

/-- C13 on the pool with three live blocks: the probe returns offset 15, changes nothing,
and `mem_alloc(3)` afterwards returns offset 15 as well. -/
theorem zero_size_alloc_is_probe_witness :
    (mem_alloc true pool_three_live 0).1 = some 15 ∧
    (mem_alloc true pool_three_live 0).2 = pool_three_live ∧
    (mem_alloc true (mem_alloc true pool_three_live 0).2 3).1 = some 15 :=
  ⟨rfl, (zero_size_alloc_is_probe true pool_three_live).2.1,
    ((zero_size_alloc_is_probe true pool_three_live).2.2 ⟨15, 5, true⟩ 3 rfl (by decide)
      (by decide)).trans rfl⟩

theorem resize_scan_not_found (ok : Bool) (off n : Nat) (l : List MemBlock)
    (h : ∀ b ∈ l, b.offset ≠ off) : resize_scan ok off n l = .not_found := by
  have := resize_scan_skip ok off n l [] h
  simpa [resize_scan] using this

/-- C14 (address not found): when no block has offset `p`, `mem_free(p)` leaves the pool
unchanged and `mem_resize(p, n)` returns `NULL` and leaves the pool (chain and arena)
unchanged for every `n`; `mem_free(NULL)` leaves the pool unchanged too. -/
theorem address_not_found_noop (s : Pool) (p : Nat) (h : ∀ b ∈ s.block_list, b.offset ≠ p) :
    mem_free s (some p) = s ∧
    (∀ ok n, mem_resize ok s (some p) n = (none, s)) ∧
    mem_free s none = s := by
  have hf : mem_free s (some p) = s := by
    simp only [mem_free]
    rw [free_scan_not_found p none _ h]
    rfl
  refine ⟨hf, fun ok n => ?_, rfl⟩
  by_cases hn : n = 0
  · simp [mem_resize, hn, hf]
  · simp only [mem_resize, hn, if_false, resize_scan_not_found ok p n _ h]

/-- C14 on the pool with three live blocks: offset 7 is inside a block but is no block's
start, so releasing or resizing it does nothing. -/
theorem address_not_found_noop_witness :
    mem_free pool_three_live (some 7) = pool_three_live ∧
    mem_resize true pool_three_live (some 7) 3 = (none, pool_three_live) :=
  ⟨(address_not_found_noop pool_three_live 7 (by decide)).1,
    (address_not_found_noop pool_three_live 7 (by decide)).2.1 true 3⟩

/-! ## Coalescing on release -/

theorem NoAdjFree_iff_chain (l : List MemBlock) :
    NoAdjFree l ↔ List.Chain' (fun a b => ¬ (a.is_free = true ∧ b.is_free = true)) l := by
  induction l with
  | nil => simp [NoAdjFree]
  | cons a l ih =>
    cases l with
    | nil => simp [NoAdjFree]
    | cons b r =>
      rw [List.chain'_cons, ← ih]
      rfl

theorem free_scan_eq_coalesce (p : Nat) (pre post : List MemBlock) (B : MemBlock) (o e : Nat)
    (hpre : ∀ b ∈ pre, b.offset ≠ p) (hB : B.offset = p) (hocc : B.is_free = false)
    (hT : Tiles o (pre ++ B :: post) e) :
    free_scan p none (pre ++ B :: post) = coalesce_spec pre B post := by
  rw [free_scan_at p pre post B hpre hB hocc]
  obtain ⟨m, hT1, hT2, hT3⟩ := (Tiles_append _ _ _ _).1 hT
  rcases List.eq_nil_or_concat pre with rfl | ⟨L, q, rfl⟩
  · cases post with
    | nil => simp [coalesce_spec, free_pred, free_succ, merge_prev, merge_next]
    | cons N R =>
      have hN : N.offset = m + B.size := hT3.1
      by_cases hNf : N.is_free = true
      · simp [coalesce_spec, free_pred, free_succ, merge_prev, merge_next, hNf]
        omega
      · simp [coalesce_spec, free_pred, free_succ, merge_prev, merge_next, hNf]
  · rw [List.concat_eq_append] at hT1 ⊢
    obtain ⟨m1, -, hq1, hq2⟩ := (Tiles_append _ _ _ _).1 hT1
    simp only [Tiles_nil] at hq2
    cases post with
    | nil =>
      by_cases hqf : q.is_free = true
      · simp [coalesce_spec, free_pred, free_succ, merge_prev, merge_next, hqf]
        omega
      · simp [coalesce_spec, free_pred, free_succ, merge_prev, merge_next, hqf]
    | cons N R =>
      have hN : N.offset = m + B.size := hT3.1
      by_cases hqf : q.is_free = true <;> by_cases hNf : N.is_free = true
      · simp [coalesce_spec, free_pred, free_succ, merge_prev, merge_next, hqf, hNf]
        omega
      · simp [coalesce_spec, free_pred, free_succ, merge_prev, merge_next, hqf, hNf]
        omega
      · simp [coalesce_spec, free_pred, free_succ, merge_prev, merge_next, hqf, hNf]
        omega
      · simp [coalesce_spec, free_pred, free_succ, merge_prev, merge_next, hqf, hNf]

theorem coalesce_NoAdjFree (pre post : List MemBlock) (B : MemBlock)
    (hadj : NoAdjFree (pre ++ B :: post)) : NoAdjFree (coalesce_spec pre B post) := by
  rw [NoAdjFree_iff_chain] at hadj ⊢
  have hL := hadj.left_of_append
  have hR := hadj.right_of_append.tail
  simp only [List.tail_cons] at hR
  unfold coalesce_spec
  rw [List.chain'_append]
  refine ⟨?_, ?_, ?_⟩
  · split_ifs
    · exact hL
    · exact hL.init
  · rw [List.chain'_cons']
    refine ⟨fun y hy => ?_, ?_⟩
    · cases post with
      | nil => simp at hy
      | cons N R =>
        by_cases hNf : N.is_free = true
        · simp only [free_succ, List.head?_cons, Option.toList_some, List.filter_cons, hNf,
            if_true, List.filter_nil, List.cons_ne_self, if_false, List.tail_cons] at hy
          cases R with
          | nil => simp at hy
          | cons z t =>
            simp only [List.head?_cons, Option.mem_def, Option.some.injEq] at hy
            subst hy
            have := hR.rel_head
            simp only [hNf, true_and] at this
            simp [this]
        · have hNf2 : N.is_free = false := by simpa using hNf
          simp only [free_succ, List.head?_cons, Option.toList_some, List.filter_cons, hNf2,
            List.filter_nil, if_true, Option.mem_def, Option.some.injEq] at hy
          simp at hy
          subst hy
          simp [hNf2]
    · split_ifs
      · exact hR
      · exact hR.tail
  · intro x hx y hy
    simp only [List.head?_cons, Option.mem_def, Option.some.injEq] at hy
    subst hy
    rcases List.eq_nil_or_concat pre with rfl | ⟨L, q, rfl⟩
    · simp at hx
    · rw [List.concat_eq_append] at hx hL
      by_cases hqf : q.is_free = true
      · have hx2 : x ∈ L.getLast? := by
          simpa [free_pred, hqf] using hx
        have := (List.chain'_append.1 hL).2.2 x hx2 q (by simp)
        simp only [hqf, and_true] at this
        simp [this]
      · have hqf2 : q.is_free = false := by simpa using hqf
        have hx2 : x = q := by
          simpa [free_pred, hqf2, eq_comm] using hx
        subst hx2
        simp [hqf2]

/-- C15 (coalescing on free): on a pool whose chain tiles `[0, pool_size)` without two
adjacent free blocks, releasing the address `p` of the occupied block `B` (the first block
at that offset) replaces `B` and whichever of its immediate predecessor and successor are
free by one free block with the lowest of their offsets and the sum of their sizes, keeps
every other block and the arena content, and the result again has no two adjacent free
blocks. -/
theorem free_coalesces_neighbours (s : Pool) (p : Nat) (pre post : List MemBlock)
    (B : MemBlock) (hd : s.block_list = pre ++ B :: post)
    (hpre : ∀ b ∈ pre, b.offset ≠ p) (hB : B.offset = p) (hocc : B.is_free = false)
    (hT : PoolTiled s) (hadj : NoAdjFree s.block_list) :
    mem_free s (some p) = { s with block_list := coalesce_spec pre B post } ∧
    NoAdjFree (mem_free s (some p)).block_list := by
  have hT2 := hT.2
  rw [hd] at hT2 hadj
  have h1 : mem_free s (some p) = { s with block_list := coalesce_spec pre B post } := by
    simp only [mem_free, hd]
    rw [free_scan_eq_coalesce p pre post B 0 s.pool_size hpre hB hocc hT2]
  rw [h1]
  exact ⟨rfl, coalesce_NoAdjFree pre post B hadj⟩

/-- C15 on a live block between two free blocks: releasing offset 5 merges all three into
one free block of 20 bytes at offset 0. -/
theorem free_coalesces_neighbours_witness :
    PoolTiled pool_sandwich ∧ NoAdjFree pool_sandwich.block_list ∧
    (mem_free pool_sandwich (some 5)).block_list = [⟨0, 20, true⟩] ∧
    NoAdjFree (mem_free pool_sandwich (some 5)).block_list :=
  ⟨by decide, by decide,
    (congrArg Pool.block_list (free_coalesces_neighbours pool_sandwich 5 [⟨0, 5, true⟩]
      [⟨10, 10, true⟩] ⟨5, 5, false⟩ rfl (by simp) rfl rfl (by decide) (by decide)).1).trans
      (by decide),
    (free_coalesces_neighbours pool_sandwich 5 [⟨0, 5, true⟩]
      [⟨10, 10, true⟩] ⟨5, 5, false⟩ rfl (by simp) rfl rfl (by decide) (by decide)).2⟩

/-! ## The allocate-copy-release branch of `mem_resize` -/

/-- In a tiling two different blocks describe disjoint byte ranges. -/
theorem Tiles_disjoint (l : List MemBlock) (o e : Nat) (hT : Tiles o l e) (b1 b2 : MemBlock)
    (h1 : b1 ∈ l) (h2 : b2 ∈ l) (hne : b1 ≠ b2) :
    b1.offset + b1.size ≤ b2.offset ∨ b2.offset + b2.size ≤ b1.offset := by
  obtain ⟨pre, post, rfl⟩ := List.append_of_mem h1
  obtain ⟨m, hT1, hT2, hT3⟩ := (Tiles_append _ _ _ _).1 hT
  rcases List.mem_append.1 h2 with h2 | h2
  · right
    have := Tiles_block_end_le _ _ _ hT1 b2 h2
    omega
  · rcases List.mem_cons.1 h2 with h2 | h2
    · exact absurd h2.symm hne
    · left
      have := Tiles_block_end_le _ _ _ hT3 b2 h2
      omega

/-- A successful `mem_alloc(n)`, `n > 0`, returns the offset of a free block of size at
least `n`. -/
theorem mem_alloc_some_block (ok : Bool) (s : Pool) (n q : Nat) (hn : 0 < n)
    (h : (mem_alloc ok s n).1 = some q) :
    ∃ Q ∈ s.block_list, Q.is_free = true ∧ Q.offset = q ∧ n ≤ Q.size := by
  have h0 : n ≠ 0 := by omega
  simp only [mem_alloc, h0, if_false] at h
  rcases exists_first (fun b => b.is_free = true ∧ n ≤ b.size) s.block_list with
    hnone | ⟨pre, B, post, hd, hB, hpre⟩
  · rw [alloc_scan_none ok n _ hnone] at h
    simp at h
  · rw [hd, alloc_scan_skip ok n pre _ hpre] at h
    have hc : B.is_free = true ∧ B.size ≥ n := hB
    refine ⟨B, by rw [hd]; simp, hB.1, ?_, hB.2⟩
    by_cases hgt : B.size > n
    · cases ok with
      | false => simp [alloc_scan, hc, hgt] at h
      | true => simpa [alloc_scan, hc, hgt] using h
    · simpa [alloc_scan, hc, hgt] using h

theorem mem_free_memory_pool (s : Pool) (p : Option Nat) :
    (mem_free s p).memory_pool = s.memory_pool := by
  cases p <;> rfl

theorem memcpy_outside (mem : Nat → Nat) (dst src len j : Nat)
    (hj : ¬ (dst ≤ j ∧ j < dst + len)) : memcpy mem dst src len j = mem j := by
  simp only [memcpy, hj, if_false]

/-- C16 (copy-fallback grow): on a pool whose chain tiles `[0, pool_size)` with positive
block sizes, when the occupied block `B` at offset `p` has `B.size < n`, cannot absorb its
successor, and `mem_alloc(n)` returns `q`, then `mem_resize(p, n)` returns `q`, its final
chain is that of `mem_alloc(n)` followed by `mem_free(p)`, the `B.size` bytes from `q`
equal the bytes previously at `p`, no arena byte outside `[q, q + B.size)` is modified,
and the copied ranges do not overlap. -/
theorem resize_copy_fallback (ok : Bool) (s : Pool) (p n q : Nat) (pre post : List MemBlock)
    (B : MemBlock) (hT : PoolTiled s) (hpos : PositiveSizes s.block_list)
    (hd : s.block_list = pre ++ B :: post) (hB : B.offset = p) (hocc : B.is_free = false)
    (hlt : B.size < n)
    (hno : ∀ N r, post = N :: r → ¬ (N.is_free = true ∧ B.size + N.size ≥ n))
    (hq : (mem_alloc ok s n).1 = some q) :
    (mem_resize ok s (some p) n).1 = some q ∧
    (mem_resize ok s (some p) n).2.block_list =
      (mem_free (mem_alloc ok s n).2 (some p)).block_list ∧
    (mem_resize ok s (some p) n).2.pool_size = s.pool_size ∧
    (∀ i, i < B.size → (mem_resize ok s (some p) n).2.memory_pool (q + i) =
      s.memory_pool (p + i)) ∧
    (∀ j, ¬ (q ≤ j ∧ j < q + B.size) →
      (mem_resize ok s (some p) n).2.memory_pool j = s.memory_pool j) ∧
    (q + n ≤ p ∨ p + B.size ≤ q) := by
  have hT2 := hT.2
  rw [hd] at hT2 hpos
  have hpre : ∀ b ∈ pre, b.offset ≠ p := fun b hb => by
    have := Tiles_prefix_lt pre post B 0 _ hT2 ((PositiveSizes_append _ _).1 hpos).1 b hb
    omega
  have hfb := mem_resize_fallback ok s p n pre post B hd hpre hB hlt hno
  rw [hq] at hfb
  simp only at hfb
  have hm : (mem_resize ok s (some p) n).2.memory_pool = memcpy s.memory_pool q p B.size := by
    rw [hfb]
    simp only [mem_free]
    rw [mem_alloc_memory_pool]
  obtain ⟨Q, hQmem, hQfree, hQoff, hQsz⟩ := mem_alloc_some_block ok s n q (by omega) hq
  have hBmem : B ∈ s.block_list := by rw [hd]; simp
  have hne : Q ≠ B := by
    intro h
    rw [h, hocc] at hQfree
    simp at hQfree
  have hdis := Tiles_disjoint _ _ _ hT.2 Q B hQmem hBmem hne
  refine ⟨by rw [hfb], by rw [hfb]; rfl, ?_, fun i hi => ?_, fun j hj => ?_, by omega⟩
  · rw [hfb]
    simp only [mem_free]
    exact mem_alloc_pool_size ok s n
  · rw [hm]
    exact memcpy_dst _ _ _ _ _ hi
  · rw [hm]
    exact memcpy_outside _ _ _ _ _ hj

/-- C16 on a pool where the block at offset 0 (bytes 1..5) must move to grow to 8 bytes:
the new block is at offset 10 and receives the five bytes. -/
theorem resize_copy_fallback_witness :
    (mem_alloc true pool_must_move 8).1 = some 10 ∧
    (mem_resize true pool_must_move (some 0) 8).1 = some 10 ∧
    (mem_resize true pool_must_move (some 0) 8).2.block_list =
      [⟨0, 5, true⟩, ⟨5, 5, false⟩, ⟨10, 8, false⟩, ⟨18, 2, true⟩] ∧
    (∀ i, i < 5 → (mem_resize true pool_must_move (some 0) 8).2.memory_pool (10 + i) =
      pool_must_move.memory_pool (0 + i)) :=
  ⟨rfl,
    (resize_copy_fallback true pool_must_move 0 8 10 [] [⟨5, 5, false⟩, ⟨10, 10, true⟩]
      ⟨0, 5, false⟩ (by decide) (by decide) rfl rfl rfl (by decide) (by simp) rfl).1,
    ((resize_copy_fallback true pool_must_move 0 8 10 [] [⟨5, 5, false⟩, ⟨10, 10, true⟩]
      ⟨0, 5, false⟩ (by decide) (by decide) rfl rfl rfl (by decide) (by simp) rfl).2.1).trans
      rfl,
    (resize_copy_fallback true pool_must_move 0 8 10 [] [⟨5, 5, false⟩, ⟨10, 10, true⟩]
      ⟨0, 5, false⟩ (by decide) (by decide) rfl rfl rfl (by decide) (by simp) rfl).2.2.2.1⟩

/-! ## Live blocks are left alone by calls on other addresses -/

theorem alloc_scan_keeps_occupied (ok : Bool) (n : Nat) (l : List MemBlock) (b : MemBlock)
    (hb : b ∈ l) (hocc : b.is_free = false) : b ∈ (alloc_scan ok n l).2 := by
  induction l with
  | nil => simp at hb
  | cons cur rest ih =>
    unfold alloc_scan
    split_ifs with hc hgt hok
    · rcases List.mem_cons.1 hb with rfl | hb
      · simp [hocc] at hc
      · simp [hb]
    · exact hb
    · rcases List.mem_cons.1 hb with rfl | hb
      · simp [hocc] at hc
      · simp [hb]
    · rcases List.mem_cons.1 hb with rfl | hb
      · simp
      · exact List.mem_cons_of_mem _ (ih hb)

theorem split_tail_keeps (ok : Bool) (n : Nat) (cur : MemBlock) (rest : List MemBlock)
    (r : Bool) (l2 : List MemBlock) (hs : split_tail ok n cur rest = .in_place r l2)
    (b : MemBlock) (hb : b ∈ rest) : b ∈ l2 := by
  unfold split_tail at hs
  split_ifs at hs <;> simp only [ResizeStep.in_place.injEq] at hs <;>
    obtain ⟨-, rfl⟩ := hs <;> simp [hb]

theorem resize_scan_keeps_occupied (ok : Bool) (off n : Nat) (l : List MemBlock) (r : Bool)
    (l2 : List MemBlock) (hs : resize_scan ok off n l = .in_place r l2) (b : MemBlock)
    (hb : b ∈ l) (hocc : b.is_free = false) (hoff : b.offset ≠ off) : b ∈ l2 := by
  induction l generalizing l2 r with
  | nil => simp at hb
  | cons cur rest ih =>
    unfold resize_scan at hs
    split_ifs at hs with hcur hge
    · rcases List.mem_cons.1 hb with rfl | hb
      · exact absurd hcur hoff
      · exact split_tail_keeps _ _ _ _ _ _ hs b hb
    · rcases List.mem_cons.1 hb with rfl | hb
      · exact absurd hcur hoff
      · cases rest with
        | nil => simp at hb
        | cons nx rest2 =>
          simp only at hs
          split_ifs at hs with hc
          · rcases List.mem_cons.1 hb with rfl | hb
            · simp [hocc] at hc
            · exact split_tail_keeps _ _ _ _ _ _ hs b hb
    · cases hrec : resize_scan ok off n rest with
      | not_found => rw [hrec] at hs; simp [ResizeStep.push] at hs
      | fallback c => rw [hrec] at hs; simp [ResizeStep.push] at hs
      | in_place r2 l3 =>
        rw [hrec] at hs
        simp only [ResizeStep.push, ResizeStep.in_place.injEq] at hs
        obtain ⟨-, rfl⟩ := hs
        rcases List.mem_cons.1 hb with rfl | hb
        · simp
        · exact List.mem_cons_of_mem _ (ih _ _ hrec hb)

/-- The block that has to move is strictly smaller than the requested size. -/
theorem resize_scan_fallback_lt (ok : Bool) (off n : Nat) (l : List MemBlock) (c : Nat)
    (hs : resize_scan ok off n l = .fallback c) : c < n := by
  induction l with
  | nil => simp [resize_scan] at hs
  | cons cur rest ih =>
    unfold resize_scan at hs
    split_ifs at hs with hcur hge
    · unfold split_tail at hs
      split_ifs at hs
    · cases rest with
      | nil =>
        simp only [ResizeStep.fallback.injEq] at hs
        omega
      | cons nx rest2 =>
        simp only at hs
        split_ifs at hs with hc
        · unfold split_tail at hs
          split_ifs at hs
        · simp only [ResizeStep.fallback.injEq] at hs
          omega
    · cases hrec : resize_scan ok off n rest with
      | not_found => rw [hrec] at hs; simp [ResizeStep.push] at hs
      | in_place r2 l3 => rw [hrec] at hs; simp [ResizeStep.push] at hs
      | fallback c2 =>
        rw [hrec] at hs
        simp only [ResizeStep.push, ResizeStep.fallback.injEq] at hs
        subst hs
        exact ih hrec

theorem mem_alloc_Undisturbed (ok : Bool) (s : Pool) (n : Nat) (L : MemBlock)
    (hL : L ∈ s.block_list) (hocc : L.is_free = false) :
    Undisturbed s (mem_alloc ok s n).2 L := by
  refine ⟨?_, fun i _ _ => by rw [mem_alloc_memory_pool]⟩
  unfold mem_alloc
  split_ifs
  · exact hL
  · exact alloc_scan_keeps_occupied ok n _ L hL hocc

theorem mem_free_Undisturbed (s : Pool) (q : Option Nat) (L : MemBlock)
    (hL : L ∈ s.block_list) (hocc : L.is_free = false) (hq : q ≠ some L.offset) :
    Undisturbed s (mem_free s q) L := by
  refine ⟨?_, fun i _ _ => by rw [mem_free_memory_pool]⟩
  cases q with
  | none => exact hL
  | some q =>
    have hne : L.offset ≠ q := fun h => hq (by rw [h])
    exact free_scan_keeps_occupied q none _ L (by simpa using hL) hocc hne

theorem mem_resize_Undisturbed (ok : Bool) (s : Pool) (q : Option Nat) (n : Nat)
    (L : MemBlock) (hT : PoolTiled s) (hL : L ∈ s.block_list) (hocc : L.is_free = false)
    (hq : q ≠ some L.offset) : Undisturbed s (mem_resize ok s q n).2 L := by
  cases q with
  | none => exact mem_alloc_Undisturbed ok s n L hL hocc
  | some q =>
    have hne : L.offset ≠ q := fun h => hq (by rw [h])
    simp only [mem_resize]
    split_ifs with hn
    · exact mem_free_Undisturbed s (some q) L hL hocc hq
    · cases hrec : resize_scan ok q n s.block_list with
      | not_found => exact ⟨hL, fun i _ _ => rfl⟩
      | in_place r l2 =>
        exact ⟨resize_scan_keeps_occupied ok q n _ r l2 hrec L hL hocc hne, fun i _ _ => rfl⟩
      | fallback c =>
        simp only
        have ha := mem_alloc_Undisturbed ok s n L hL hocc
        cases hq2 : (mem_alloc ok s n).1 with
        | none => exact ha
        | some q2 =>
          simp only
          have hc := resize_scan_fallback_lt ok q n _ c hrec
          obtain ⟨Q, hQmem, hQfree, hQoff, hQsz⟩ :=
            mem_alloc_some_block ok s n q2 (by omega) hq2
          have hneq : Q ≠ L := by
            intro h
            rw [h, hocc] at hQfree
            simp at hQfree
          have hdis := Tiles_disjoint _ _ _ hT.2 Q L hQmem hL hneq
          refine ⟨?_, fun i hi1 hi2 => ?_⟩
          · exact free_scan_keeps_occupied q none _ L (by simpa using ha.1) hocc hne
          · rw [mem_free_memory_pool]
            simp only
            rw [mem_alloc_memory_pool]
            exact memcpy_outside _ _ _ _ _ (by omega)

/-- C17 (live allocations are not disturbed): on a pool whose chain tiles
`[0, pool_size)`, for every occupied block `L`, each of `mem_alloc(n)`, `mem_free(q)` and
`mem_resize(q, n)` with `q` different from the address of `L` (any `n`, any outcome of
the descriptor allocation) leaves an occupied block with the offset and size of `L` in
the chain and leaves every arena byte of `[L.offset, L.offset + L.size)` unchanged. -/
theorem live_blocks_undisturbed (ok : Bool) (s : Pool) (L : MemBlock) (hT : PoolTiled s)
    (hL : L ∈ s.block_list) (hocc : L.is_free = false) :
    (∀ n, Undisturbed s (mem_alloc ok s n).2 L) ∧
    (∀ q, q ≠ some L.offset → Undisturbed s (mem_free s q) L) ∧
    (∀ q n, q ≠ some L.offset → Undisturbed s (mem_resize ok s q n).2 L) :=
  ⟨fun n => mem_alloc_Undisturbed ok s n L hL hocc,
    fun q hq => mem_free_Undisturbed s q L hL hocc hq,
    fun q n hq => mem_resize_Undisturbed ok s q n L hT hL hocc hq⟩

/-- C17 on the pool where the block at offset 0 must move to grow: the live block at
offset 5 is still there afterwards with its bytes, and also after a release of offset 0. -/
theorem live_blocks_undisturbed_witness :
    (mem_resize true pool_must_move (some 0) 8).1 = some 10 ∧
    Undisturbed pool_must_move (mem_resize true pool_must_move (some 0) 8).2 ⟨5, 5, false⟩ ∧
    Undisturbed pool_must_move (mem_free pool_must_move (some 0)) ⟨5, 5, false⟩ :=
  ⟨rfl,
    (live_blocks_undisturbed true pool_must_move ⟨5, 5, false⟩ (by decide)
      (by simp [pool_must_move]) rfl).2.2 (some 0) 8 (by simp),
    (live_blocks_undisturbed true pool_must_move ⟨5, 5, false⟩ (by decide)
      (by simp [pool_must_move]) rfl).2.1 (some 0) (by simp)⟩

/-! ## In-place resize of a free block -/

theorem resize_free_block_shape (s : Pool) (p n : Nat) (pre post : List MemBlock)
    (B : MemBlock) (hd : s.block_list = pre ++ B :: post)
    (hpre : ∀ b ∈ pre, b.offset ≠ p) (hB : B.offset = p) (hfree : B.is_free = true)
    (hn : 0 < n)
    (hfit : n ≤ B.size ∨
      ∃ N rest, post = N :: rest ∧ N.is_free = true ∧ B.size + N.size ≥ n) :
    (mem_resize true s (some p) n).1 = some p ∧
    ∃ tl, (mem_resize true s (some p) n).2.block_list = pre ++ ⟨p, n, true⟩ :: tl := by
  have hBn : ({ B with size := n } : MemBlock) = ⟨p, n, true⟩ := by
    rw [← hB, ← hfree]
  by_cases hle : n ≤ B.size
  · rw [mem_resize_shrink s p n pre post B hd hpre hB hn hle]
    refine ⟨rfl, ?_⟩
    by_cases he : B.size = n
    · refine ⟨post, ?_⟩
      have : B = ⟨p, n, true⟩ := by rw [← hBn, ← he]
      simp [he, this]
    · exact ⟨⟨B.offset + n, B.size - n, true⟩ :: post, by simp [he, hBn]⟩
  · rcases hfit with h | ⟨N, rest, rfl, hN, hsum⟩
    · exact absurd h hle
    · rw [mem_resize_absorb s p n pre rest B N hd hpre hB (by omega) hN hsum]
      refine ⟨rfl, (if B.size + N.size > n then
        [⟨B.offset + n, B.size + N.size - n, true⟩] else []) ++ rest, ?_⟩
      simp only [hBn]

/-- C18 (in-place resize keeps the free flag): when the first block `B` at offset `p` is
free and `n > 0` fits in `B`, or in `B` together with its free successor, `mem_resize(p, n)`
returns `p` as for a live block, while the block found at offset `p` afterwards has size
`n` and is still marked free; so `mem_alloc(n)` returns the same address `p` whenever no
earlier block is free and large enough (descriptor allocation succeeding). -/
theorem resize_in_place_keeps_free_flag (s : Pool) (p n : Nat) (pre post : List MemBlock)
    (B : MemBlock) (hd : s.block_list = pre ++ B :: post)
    (hpre : ∀ b ∈ pre, b.offset ≠ p) (hB : B.offset = p) (hfree : B.is_free = true)
    (hn : 0 < n)
    (hfit : n ≤ B.size ∨
      ∃ N rest, post = N :: rest ∧ N.is_free = true ∧ B.size + N.size ≥ n) :
    (mem_resize true s (some p) n).1 = some p ∧
    (mem_resize true s (some p) n).2.block_list.find? (fun b => decide (b.offset = p)) =
      some ⟨p, n, true⟩ ∧
    ((∀ b ∈ pre, ¬ (b.is_free = true ∧ n ≤ b.size)) →
      (mem_alloc true (mem_resize true s (some p) n).2 n).1 = some p) := by
  obtain ⟨h1, tl, h2⟩ := resize_free_block_shape s p n pre post B hd hpre hB hfree hn hfit
  refine ⟨h1, ?_, fun hq => ?_⟩
  · rw [h2, List.find?_append]
    have : pre.find? (fun b => decide (b.offset = p)) = none := by
      simpa using hpre
    simp [this]
  · have h0 : n ≠ 0 := by omega
    simp only [mem_alloc, h0, if_false, h2, alloc_scan_skip true n pre _ hq]
    simp [alloc_scan]

/-- C18 on the pool with three live blocks, whose free block at offset 15 is what
`mem_alloc(0)` returns: `mem_resize` of that address to 3 bytes returns offset 15, the
block stays free, and `mem_alloc(3)` then returns offset 15 again. -/
theorem resize_in_place_keeps_free_flag_witness :
    (mem_alloc true pool_three_live 0).1 = some 15 ∧
    (mem_resize true pool_three_live (some 15) 3).1 = some 15 ∧
    (mem_resize true pool_three_live (some 15) 3).2.block_list.find?
      (fun b => decide (b.offset = 15)) = some ⟨15, 3, true⟩ ∧
    (mem_alloc true (mem_resize true pool_three_live (some 15) 3).2 3).1 = some 15 :=
  ⟨rfl,
    (resize_in_place_keeps_free_flag pool_three_live 15 3
      [⟨0, 5, false⟩, ⟨5, 5, false⟩, ⟨10, 5, false⟩] [] ⟨15, 5, true⟩ rfl (by simp) rfl rfl
      (by decide) (Or.inl (by decide))).1,
    (resize_in_place_keeps_free_flag pool_three_live 15 3
      [⟨0, 5, false⟩, ⟨5, 5, false⟩, ⟨10, 5, false⟩] [] ⟨15, 5, true⟩ rfl (by simp) rfl rfl
      (by decide) (Or.inl (by decide))).2.1,
    (resize_in_place_keeps_free_flag pool_three_live 15 3
      [⟨0, 5, false⟩, ⟨5, 5, false⟩, ⟨10, 5, false⟩] [] ⟨15, 5, true⟩ rfl (by simp) rfl rfl
      (by decide) (Or.inl (by decide))).2.2 (by simp)⟩

/-! ## Byte accounting -/

@[simp] theorem free_bytes_nil : free_bytes [] = 0 := rfl

@[simp] theorem free_bytes_cons (b : MemBlock) (l : List MemBlock) :
    free_bytes (b :: l) = (if b.is_free = true then b.size else 0) + free_bytes l := by
  by_cases h : b.is_free = true <;> simp [free_bytes, List.filter_cons, h]

@[simp] theorem free_bytes_append (a b : List MemBlock) :
    free_bytes (a ++ b) = free_bytes a + free_bytes b := by
  simp [free_bytes]

@[simp] theorem used_bytes_nil : used_bytes [] = 0 := rfl

@[simp] theorem used_bytes_cons (b : MemBlock) (l : List MemBlock) :
    used_bytes (b :: l) = (if b.is_free = true then 0 else b.size) + used_bytes l := by
  by_cases h : b.is_free = true <;> simp [used_bytes, List.filter_cons, h]

@[simp] theorem used_bytes_append (a b : List MemBlock) :
    used_bytes (a ++ b) = used_bytes a + used_bytes b := by
  simp [used_bytes]

theorem free_bytes_merge (prev : Option MemBlock) (cur : MemBlock) (rest : List MemBlock)
    (hc : cur.is_free = true) :
    free_bytes (merge_prev prev (merge_next cur rest)) =
      free_bytes prev.toList + cur.size + free_bytes rest := by
  cases rest with
  | nil =>
    cases prev with
    | none => simp [merge_prev, merge_next, hc]
    | some q =>
      by_cases hq : q.is_free = true
      · simp [merge_prev, merge_next, hc, hq]
      · simp [merge_prev, merge_next, hc, hq]
  | cons N R =>
    cases prev with
    | none =>
      by_cases hN : N.is_free = true
      · simp [merge_prev, merge_next, hc, hN]
        omega
      · simp [merge_prev, merge_next, hc, hN]
    | some q =>
      by_cases hq : q.is_free = true <;> by_cases hN : N.is_free = true
      · simp [merge_prev, merge_next, hc, hq, hN]
        omega
      · simp [merge_prev, merge_next, hc, hq, hN]
      · simp [merge_prev, merge_next, hc, hq, hN]
        omega
      · simp [merge_prev, merge_next, hc, hq, hN]

theorem free_bytes_dropLast (pre : List MemBlock) :
    free_bytes pre.dropLast + free_bytes pre.getLast?.toList = free_bytes pre := by
  rcases List.eq_nil_or_concat pre with rfl | ⟨L, q, rfl⟩
  · simp
  · simp

/-- C19 (exact byte accounting): a successful `mem_alloc(n)`, `n > 0`, lowers the total
size of the free blocks by exactly `n` and raises the total size of the occupied blocks
by exactly `n`; and on a pool whose chain tiles `[0, pool_size)` with positive sizes,
`mem_free` of the address of an occupied block of size `s` raises the total size of the
free blocks by exactly `s`. -/
theorem exact_byte_accounting (s : Pool) :
    (∀ ok n q, 0 < n → (mem_alloc ok s n).1 = some q →
      free_bytes (mem_alloc ok s n).2.block_list + n = free_bytes s.block_list ∧
      used_bytes (mem_alloc ok s n).2.block_list = used_bytes s.block_list + n) ∧
    (PoolTiled s → PositiveSizes s.block_list →
      ∀ B ∈ s.block_list, B.is_free = false →
        free_bytes (mem_free s (some B.offset)).block_list =
          free_bytes s.block_list + B.size) := by
  refine ⟨fun ok n q hn hq => ?_, fun hT hpos B hB hocc => ?_⟩
  · have h0 : n ≠ 0 := by omega
    simp only [mem_alloc, h0, if_false] at hq ⊢
    rcases exists_first (fun b => b.is_free = true ∧ n ≤ b.size) s.block_list with
      hnone | ⟨pre, C, post, hd, hC, hpre⟩
    · rw [alloc_scan_none ok n _ hnone] at hq
      simp at hq
    · rw [hd, alloc_scan_skip ok n pre _ hpre] at hq ⊢
      have hc : C.is_free = true ∧ C.size ≥ n := hC
      have hsz : n ≤ C.size := hC.2
      by_cases hgt : C.size > n
      · cases ok with
        | false => simp [alloc_scan, hc, hgt] at hq
        | true =>
          simp [alloc_scan, hc, hgt, hC.1]
          omega
      · have he : C.size = n := by omega
        simp [alloc_scan, hc, hgt, hC.1]
        omega
  · obtain ⟨pre, post, hd, hpre⟩ := first_at_own_offset _ _ _ hT.2 hpos B hB
    simp only [mem_free, hd]
    rw [free_scan_at B.offset pre post B hpre rfl hocc]
    have h1 := free_bytes_merge pre.getLast? { B with is_free := true } post rfl
    have h2 := free_bytes_dropLast pre
    rw [free_bytes_append, h1, free_bytes_append, free_bytes_cons, hocc]
    simp only [Bool.false_eq_true, if_false]
    omega

/-- C19 on the pool with a live block between two free blocks: `mem_alloc(4)` moves
exactly 4 bytes from free to occupied, and releasing the 5-byte block at offset 5 adds
exactly 5 free bytes. -/
theorem exact_byte_accounting_witness :
    free_bytes pool_sandwich.block_list = 15 ∧ used_bytes pool_sandwich.block_list = 5 ∧
    free_bytes (mem_alloc true pool_sandwich 4).2.block_list + 4 = 15 ∧
    used_bytes (mem_alloc true pool_sandwich 4).2.block_list = 5 + 4 ∧
    free_bytes (mem_free pool_sandwich (some 5)).block_list = 15 + 5 :=
  ⟨by decide, by decide,
    ((exact_byte_accounting pool_sandwich).1 true 4 0 (by decide) rfl).1,
    ((exact_byte_accounting pool_sandwich).1 true 4 0 (by decide) rfl).2,
    (exact_byte_accounting pool_sandwich).2 (by decide) (by decide) ⟨5, 5, false⟩
      (by simp [pool_sandwich]) rfl⟩

end MemoryManager

namespace LinkedList

theorem list_count_nodes_eq_length (l : List Nat) : list_count_nodes l = l.length := by
  induction l with
  | nil => rfl
  | cons x l ih => simp [list_count_nodes, ih]

theorem list_delete_eq_erase (l : List Nat) (d : Nat) : list_delete l d = l.erase d := by
  induction l with
  | nil => rfl
  | cons x l ih =>
    by_cases h : x = d
    · simp [list_delete, h]
    · have hb : (x == d) = false := by simpa using h
      simp [list_delete, h, List.erase_cons, hb, ih]

theorem list_delete_at_first (pre post : List Nat) (d : Nat) (h : d ∉ pre) :
    list_delete (pre ++ d :: post) d = pre ++ post := by
  induction pre with
  | nil => simp [list_delete]
  | cons x pre ih =>
    have hx : x ≠ d := fun hxd => h (by simp [hxd])
    have hp : d ∉ pre := fun hd => h (List.mem_cons_of_mem _ hd)
    simp [list_delete, hx, ih hp]

theorem list_delete_absent (l : List Nat) (d : Nat) (h : d ∉ l) : list_delete l d = l := by
  induction l with
  | nil => rfl
  | cons x l ih =>
    have hx : x ≠ d := fun hxd => h (by simp [hxd])
    have hp : d ∉ l := fun hd => h (List.mem_cons_of_mem _ hd)
    simp [list_delete, hx, ih hp]

theorem list_search_isSome (l : List Nat) (d : Nat) : (list_search l d).isSome ↔ d ∈ l := by
  induction l with
  | nil => simp [list_search]
  | cons x l ih =>
    by_cases h : x = d
    · simp [list_search, h]
    · have hne : ¬ d = x := fun hd => h hd.symm
      simp [list_search, h, ih, hne]

/-- C20 (linked-list delete and search): `list_delete(head, d)` erases the first element
equal to `d` and keeps all other elements in order (whenever the list is `pre ++ d :: post`
with `d` not in `pre`, the result is `pre ++ post` and the node count drops by exactly
one), it is the library's erase-first-occurrence, it leaves the list unchanged when `d`
does not occur, and `list_search(head, d)` returns a node exactly when `d` occurs. -/
theorem list_delete_first_occurrence (l : List Nat) (d : Nat) :
    (∀ pre post, l = pre ++ d :: post → d ∉ pre →
      list_delete l d = pre ++ post ∧
      list_count_nodes (list_delete l d) + 1 = list_count_nodes l) ∧
    list_delete l d = l.erase d ∧
    (d ∉ l → list_delete l d = l) ∧
    ((list_search l d).isSome ↔ d ∈ l) := by
  refine ⟨fun pre post hl hpre => ?_, list_delete_eq_erase l d, list_delete_absent l d,
    list_search_isSome l d⟩
  subst hl
  rw [list_delete_at_first pre post d hpre]
  refine ⟨rfl, ?_⟩
  simp only [list_count_nodes_eq_length, List.length_append, List.length_cons]
  omega

/-- C20 on the list 3, 7, 3, 9: deleting 3 removes only the head, the count goes from 4
to 3, deleting 5 changes nothing, and the search finds 7 but not 5. -/
theorem list_delete_first_occurrence_witness :
    list_delete [3, 7, 3, 9] 3 = [7, 3, 9] ∧
    list_count_nodes (list_delete [3, 7, 3, 9] 3) + 1 = list_count_nodes [3, 7, 3, 9] ∧
    list_delete [3, 7, 3, 9] 5 = [3, 7, 3, 9] ∧
    (list_search [3, 7, 3, 9] 7).isSome = true ∧ (list_search [3, 7, 3, 9] 5).isSome = false :=
  ⟨((list_delete_first_occurrence [3, 7, 3, 9] 3).1 [] [7, 3, 9] rfl (by simp)).1,
    ((list_delete_first_occurrence [3, 7, 3, 9] 3).1 [] [7, 3, 9] rfl (by simp)).2,
    (list_delete_first_occurrence [3, 7, 3, 9] 5).2.2.1 (by decide), by decide, by decide⟩

end LinkedList
